import Mathlib

/-! Huffman.c : a shallow embedding

* Bytes are natural numbers (the values of `getc`, 0..255); a file is the list
  of its bytes, and reading past its end is `EOF`.
* A `char symbol[16]` array is a function from index to byte: the indices 0
  to 15 are the array, the indices from 16 on the bytes that follow it in
  memory, which `hash_function` and `strcmp` read when the array holds no zero
  byte.  What an array and the bytes after it hold before anything is stored
  (the local array of `encode`, the array of a node fresh from `malloc`) is
  whatever memory held: it is a parameter of the functions that read it.
* A run that does not return ends in a `Fault`: one of the `exit(1)` branches
  of the source, or a memory fault (a field of NULL, a read past the end of
  memory or past the slots of the min-heap array).
* A shift of a 64 bit word takes its count modulo 64, as the shift
  instructions of the processor do.
* The global variables are the fields of `Globals`, passed from call to call.
  A node pointer is NULL or a node with its two subtrees; a chain of the hash
  table is the list of its nodes.
* `uint64_t` arithmetic is arithmetic on naturals modulo `2 ^ 64`, `unsigned
  int` arithmetic modulo `2 ^ 32`.
* The messages printed to the console are left out.
-/

namespace Huffman

/-- The constant `MAX_SYMBOL_SIZE`. -/
def MAX_SYMBOL_SIZE : Nat := 16

/-- The ways a run of the program stops without returning: the `exit(1)`
branches of the source, and the two memory faults the C text can reach. -/
inductive Fault where
  /-- "We need at least two different symbols for the following code to work" -/
  | too_few_symbols
  /-- "Unexpected end of file" -/
  | unexpected_eof
  /-- "Word too large" -/
  | word_too_large
  /-- "find_hash_table_node() unexpected failure" -/
  | find_failure
  /-- "Too many bits in a code word" -/
  | too_many_bits
  /-- a field of the NULL pointer is read or written -/
  | null_deref
  /-- a read runs past the end of memory, or past the slots of the min-heap
  array -/
  | out_of_bounds
  /-- not a behaviour of the program: the recursion bound of a function of
  this development was reached -/
  | out_of_fuel
  deriving DecidableEq, Repr

/-- The character map `map[256]` filled at the start of `encode`. -/
def map (c : Nat) : Nat :=
  if 48 ≤ c ∧ c ≤ 57 then 0
  else if (65 ≤ c ∧ c ≤ 90) ∨ (97 ≤ c ∧ c ≤ 122) then 1
  else if 128 ≤ c then 2
  else if c = 32 then 3
  else if c = 10 then 4
  else 5

/-- The local variables of the scanning loop of `encode`. -/
structure Scan where
  symbol : Nat → Nat
  symbol_size : Nat
  symbol_type : Nat

/-- A call `count_symbol(symbol,symbol_size)` or
`write_code_word(fp_out,symbol,symbol_size)` made by the scanning loop: the
contents of the array at the call, and the size handed over. -/
structure Emitted where
  symbol : Nat → Nat
  symbol_size : Nat

/-- The bytes of a symbol: the first `symbol_size` bytes of the array. -/
def Emitted.bytes (e : Emitted) : List Nat :=
  (List.range e.symbol_size).map e.symbol

/-- The `if(symbol_size > 0)` call inside the loop. -/
def flush_symbol (t : Scan) : List Emitted :=
  if 0 < t.symbol_size then [⟨t.symbol, t.symbol_size⟩] else []

/-- The `for(;;)` loop of `encode` over the bytes still to be read (the empty
list is `EOF`); returns the calls made, in order, and the array as it is left. -/
def scan_loop : List Nat → Scan → List Emitted × (Nat → Nat)
  | [], t => (flush_symbol t, t.symbol)
  | c :: cs, t =>
    if map c ≠ t.symbol_type ∨ t.symbol_size = MAX_SYMBOL_SIZE then
      let r := scan_loop cs ⟨Function.update t.symbol 0 c, 1, map c⟩
      (flush_symbol t ++ r.1, r.2)
    else
      scan_loop cs ⟨Function.update t.symbol t.symbol_size c, t.symbol_size + 1, t.symbol_type⟩

/-- One pass of the scanning loop: `symbol_size = 0; symbol_type = 0;` then the loop. -/
def scan_pass (symbol : Nat → Nat) (input : List Nat) : List Emitted × (Nat → Nat) :=
  scan_loop input ⟨symbol, 0, 0⟩

/-- The symbols the tokenizer loop emits on an input, as byte sequences. -/
def tokens (symbol : Nat → Nat) (input : List Nat) : List (List Nat) :=
  (scan_pass symbol input).1.map Emitted.bytes

/-- The longest run at the head of `r` of bytes of the class of its first
byte, cut at 16 bytes. -/
def first_run (r : List Nat) : List Nat :=
  (r.takeWhile (fun b => map b = map (r.headD 0))).take MAX_SYMBOL_SIZE

/-- Greedy segmentation, as the specification words it: cut off the longest
one-class run of at most 16 bytes, and go on with what is left. -/
def greedy : Nat → List Nat → List (List Nat)
  | 0, _ => []
  | _ + 1, [] => []
  | fuel + 1, c :: cs =>
    first_run (c :: cs) :: greedy fuel ((c :: cs).drop (first_run (c :: cs)).length)


/-! ## Nodes and the hash table -/

/-- The data fields of `struct node`. -/
structure Data where
  symbol : Nat → Nat
  symbol_size : Nat
  count : Nat
  code : Nat
  code_bits : Int

/-- A `node *`: the NULL pointer, or a node with its data and its `left` and
`right` pointers.  The `next` pointer is not a field here: a chain of the hash
table is the list of its nodes, first node first. -/
inductive node where
  | NULL : node
  | mk (d : Data) (left right : node) : node

/-- The function `allocate_node`; `symbol` is what the allocated array holds. -/
def allocate_node (symbol : Nat → Nat) : node :=
  .mk ⟨symbol, 0, 0, 0, -1⟩ .NULL .NULL

/-- Reading the data of `*n`. -/
def node.data (n : node) : Except Fault Data :=
  match n with
  | .NULL => .error .null_deref
  | .mk d _ _ => .ok d

/-- One entry of the static `table[256]` of `hash_function`, entry `i` after `j` rounds. -/
def table_rounds : Nat → Nat → Nat
  | 0, i => i
  | j + 1, i =>
    let t := table_rounds j i
    if t % 2 = 1 then (t >>> 1) ^^^ 0xAED00022 else t >>> 1

/-- The static `table[256]` of `hash_function`. -/
def table (i : Nat) : Nat := table_rounds 8 i

/-- The number of byte addresses of the machine: a loop that reads one byte
after the other and has not stopped after this many reads has left the memory
of the process. -/
def ADDRESS_SPACE : Nat := 2 ^ 64

/-- The `while(*symbol != 0)` loop of `hash_function`, at index `i`.  The
loop has no bound of its own: after the 16 bytes of the array it reads on
into the bytes that follow the array in memory, which `symbol` gives at the
indices from 16 on, up to the first zero byte.  `k` is the number of bytes
left before the end of memory. -/
def crc_loop (symbol : Nat → Nat) : Nat → Nat → Nat → Except Fault Nat
  | 0, _, _ => .error .out_of_bounds
  | k + 1, i, crc =>
    if symbol i = 0 then .ok crc
    else crc_loop symbol k (i + 1)
      ((crc >>> 8) ^^^ table (crc % 256) ^^^ ((symbol i <<< 24) % 2 ^ 32))

/-- The function `hash_function`; `symbol_size` is not used by the source. -/
def hash_function (hash_table_size : Nat) (symbol : Nat → Nat) (_symbol_size : Nat) :
    Except Fault Nat :=
  (crc_loop symbol ADDRESS_SPACE 0 0xAED02016).map (fun crc => crc % hash_table_size)

/-- The library call `strcmp(a,b) == 0`, from index `i`: compare byte by byte
up to the first difference or the first zero byte, in the bytes of the two
arrays and then in the bytes that follow each of them in memory (the indices
from 16 on).  `k` is the number of bytes left before the end of memory. -/
def strcmp_loop (a b : Nat → Nat) : Nat → Nat → Except Fault Bool
  | 0, _ => .error .out_of_bounds
  | k + 1, i =>
    if a i ≠ b i then .ok false
    else if a i = 0 then .ok true
    else strcmp_loop a b k (i + 1)

/-- Whether `strcmp(a,b)` is 0. -/
def strcmp_zero (a b : Nat → Nat) : Except Fault Bool :=
  strcmp_loop a b ADDRESS_SPACE 0

/-- The global variables of the program. -/
structure Globals where
  hash_table_size : Nat
  hash_count : Nat
  hash_table : Nat → List node
  min_heap_array : List node
  min_heap_array_size : Nat
  min_heap_size : Nat
  Huffman_root : node
  partial_word : Nat
  partial_word_bits : Int

/-- The globals when `main` starts: all zero. -/
def Globals.start : Globals :=
  ⟨0, 0, fun _ => [], [], 0, 0, .NULL, 0, 0⟩

/-- The function `init_hash_table`. -/
def init_hash_table (desired_hash_table_size : Nat) (g : Globals) : Globals :=
  let size := if desired_hash_table_size < 1000 then 1000 else desired_hash_table_size
  let size := if size > 1000000 then 1000000 else size
  { g with hash_table_size := size, hash_table := fun _ => [], hash_count := 0 }

/-- The `while(n != NULL && strcmp(symbol,n->symbol) != 0)` loop of
`find_hash_table_node`: the position in the chain of the node it stops at. -/
def chain_find (symbol : Nat → Nat) : List node → Except Fault (Option Nat)
  | [] => .ok none
  | n :: ns => do
    let d ← n.data
    if ← strcmp_zero symbol d.symbol then pure (some 0)
    else return (← chain_find symbol ns).map (· + 1)

/-- The node made by `find_hash_table_node` when none is found:
`allocate_node`, then `symbol_size` and the `memcpy` of `symbol_size` bytes.
From index 16 on, `fresh` stands for the bytes of the node after the array. -/
def new_node (fresh symbol : Nat → Nat) (symbol_size : Nat) : node :=
  .mk ⟨fun i => if i < symbol_size then symbol i else fresh i, symbol_size, 0, 0, -1⟩ .NULL .NULL

/-- The function `find_hash_table_node`: returns the chain index and the
position in that chain of the node returned (`none` for NULL), and the globals.
`fresh` is what a newly allocated `symbol` array holds. -/
def find_hash_table_node (fresh symbol : Nat → Nat) (symbol_size : Nat)
    (create_if_not_found : Bool) (g : Globals) : Except Fault (Nat × Option Nat × Globals) := do
  let idx ← hash_function g.hash_table_size symbol symbol_size
  match ← chain_find symbol (g.hash_table idx) with
  | some k => pure (idx, some k, g)
  | none =>
    if create_if_not_found then
      pure (idx, some 0,
        { g with hash_table :=
                   Function.update g.hash_table idx
                     (new_node fresh symbol symbol_size :: g.hash_table idx),
                 hash_count := g.hash_count + 1 })
    else pure (idx, none, g)

/-- The statement `n->count++`. -/
def node.incr_count (n : node) : node :=
  match n with
  | .NULL => .NULL
  | .mk d l r => .mk { d with count := d.count + 1 } l r

/-- The function `count_symbol`. -/
def count_symbol (fresh symbol : Nat → Nat) (symbol_size : Nat) (g : Globals) :
    Except Fault Globals := do
  match ← find_hash_table_node fresh symbol symbol_size true g with
  | (idx, some k, g) =>
    pure { g with hash_table :=
                    Function.update g.hash_table idx ((g.hash_table idx).modify node.incr_count k) }
  | (_, none, _) => .error .null_deref

/-- What the hash table holds, chain after chain: the bytes, the size and the
count of each node. -/
def table_entries (g : Globals) (indices : List Nat) : List (List Nat × Nat × Nat) :=
  indices.flatMap fun i => (g.hash_table i).filterMap fun n =>
    match n with
    | .NULL => none
    | .mk d _ _ => some ((List.range d.symbol_size).map d.symbol, d.symbol_size, d.count)

/-! ## The min-heap -/

/-- The function `create_min_heap`; no slot of the new array holds anything yet. -/
def create_min_heap (max_size : Nat) (g : Globals) : Globals :=
  let max_size := if max_size < 100 then 100 else max_size
  let max_size := if max_size > 10000000 then 10000000 else max_size
  { g with min_heap_array_size := max_size + 1, min_heap_array := [], min_heap_size := 0 }

/-- The library call `realloc` on the min-heap array, in slots: the first `k`
slots are kept, new slots hold no node yet (NULL stands for that). -/
def realloc_slots (a : List node) (k : Nat) : List node :=
  a.take k ++ List.replicate (k - a.length) node.NULL

/-- Reading slot `i` of the min-heap array. -/
def slot (a : List node) (i : Nat) : Except Fault node :=
  match a.get? i with
  | some n => .ok n
  | none => .error .out_of_bounds

/-- The `while(i && n->count < min_heap_array[i / 2]->count)` loop of
`min_heap_put`.  The first argument bounds the number of turns: `i` is halved
at each turn, so `i` turns are enough. -/
def sift_up (n : node) : Nat → Nat → List node → Except Fault (Nat × List node)
  | 0, i, a => .ok (i, a)
  | k + 1, i, a =>
    if i = 0 then .ok (i, a)
    else do
      let d ← n.data
      let p ← slot a (i / 2)
      let pd ← p.data
      if d.count < pd.count then sift_up n k (i / 2) (a.set i p)
      else pure (i, a)

/-- The function `min_heap_put`: room for one more slot, the loop, then
`min_heap_array[i] = n`. -/
def min_heap_put (n : node) (g : Globals) : Except Fault Globals := do
  let a := if g.min_heap_size ≠ 0 then realloc_slots g.min_heap_array (g.min_heap_size + 1)
           else realloc_slots [] 1
  let (i, a) ← sift_up n g.min_heap_size g.min_heap_size a
  pure { g with min_heap_array := a.set i n, min_heap_size := g.min_heap_size + 1 }

/-! ## The Huffman tree -/

/-- The statements `n->code = code; n->code_bits = code_bits; expand_binary_code(n);`
made for a child `n` that is not NULL (nothing is done for NULL). -/
def assign_code (code : Nat) (code_bits : Int) : node → node
  | .NULL => .NULL
  | .mk d l r =>
    .mk { d with code := code, code_bits := code_bits }
      (assign_code (((code <<< 1) % 2 ^ 64 + 0) % 2 ^ 64) (code_bits + 1) l)
      (assign_code (((code <<< 1) % 2 ^ 64 + 1) % 2 ^ 64) (code_bits + 1) r)

/-- The function `expand_binary_code`. -/
def expand_binary_code (n : node) : Except Fault node :=
  match n with
  | .NULL => .error .null_deref
  | .mk d l r =>
    .ok (.mk d
      (assign_code (((d.code <<< 1) % 2 ^ 64 + 0) % 2 ^ 64) (d.code_bits + 1) l)
      (assign_code (((d.code <<< 1) % 2 ^ 64 + 1) % 2 ^ 64) (d.code_bits + 1) r))

/-- The statements `Huffman_root->code = 0; Huffman_root->code_bits = 0;
expand_binary_code(Huffman_root);` of `make_Huffman_tree` and of `decode`. -/
def assign_codes (Huffman_root : node) : Except Fault node :=
  match Huffman_root with
  | .NULL => .error .null_deref
  | .mk d l r => expand_binary_code (.mk { d with code := 0, code_bits := 0 } l r)

/-- The function `make_Huffman_tree`.  Between the loop that fills the
min-heap and the assignment of the codes the source has no statement. -/
def make_Huffman_tree (g : Globals) : Except Fault Globals := do
  if g.hash_count < 2 then throw Fault.too_few_symbols
  let g := create_min_heap g.hash_count g
  let g ← (List.range g.hash_table_size).foldlM
    (fun g i => (g.hash_table i).foldlM (fun g n => min_heap_put n g) g) g
  let root ← assign_codes g.Huffman_root
  pure { g with Huffman_root := root }

/-- The function `encode_Huffman_node`: both branches of the source are
empty, so nothing is written to `fp_out`. -/
def encode_Huffman_node (n : node) (fp_out : List Nat) : Except Fault (List Nat) :=
  match n with
  | .NULL => .error .null_deref
  | .mk _ l _ =>
    match l with
    | .mk _ _ _ => .ok fp_out
    | .NULL => .ok fp_out

/-- The `for(i = 0;i < n->symbol_size;i++)` loop of `decode_Huffman_node`,
with `k` bytes still to read into index `i`. -/
def read_symbol : Nat → Nat → (Nat → Nat) → List Nat → Except Fault ((Nat → Nat) × List Nat)
  | 0, _, symbol, fp_in => .ok (symbol, fp_in)
  | _ + 1, _, _, [] => .error .unexpected_eof
  | k + 1, i, symbol, c :: fp_in => read_symbol k (i + 1) (Function.update symbol i c) fp_in

/-- The function `decode_Huffman_node` with a bound on the depth of the
recursion; returns the node and the bytes of `fp_in` not yet read.  `fresh` is
what a newly allocated `symbol` array holds. -/
def decode_Huffman_node_depth (fresh : Nat → Nat) :
    Nat → List Nat → Except Fault (node × List Nat)
  | 0, _ => .error .out_of_fuel
  | _ + 1, [] => .error .unexpected_eof
  | k + 1, c :: fp_in =>
    if c = 255 then do
      let (l, fp_in) ← decode_Huffman_node_depth fresh k fp_in
      let (r, fp_in) ← decode_Huffman_node_depth fresh k fp_in
      pure (.mk ⟨fresh, 0, 0, 0, -1⟩ l r, fp_in)
    else if c > MAX_SYMBOL_SIZE then .error .word_too_large
    else do
      let (symbol, fp_in) ← read_symbol c 0 fresh fp_in
      pure (.mk ⟨symbol, c, 0, 0, -1⟩ .NULL .NULL, fp_in)

/-- The function `decode_Huffman_node`: every call reads a byte first, so the
recursion is never deeper than the number of bytes. -/
def decode_Huffman_node (fresh : Nat → Nat) (fp_in : List Nat) :
    Except Fault (node × List Nat) :=
  decode_Huffman_node_depth fresh (fp_in.length + 1) fp_in

/-! ## Writing code words, `encode` and `decode` -/

/-- The shift `x << count` of the 64 bit word `x` by a count of type `int`.
The source puts no bound on the count.  The shift instruction of the
processor takes the count modulo 64: a count of 64 leaves `x` as it is, a
count of -1 shifts by 63. -/
def shift_left (x : Nat) (count : Int) : Nat :=
  (x <<< (count % 64).toNat) % 2 ^ 64

/-- The `while(partial_word_bits >= 8)` loop of `write_code_word`; returns
`partial_word_bits` and the file.  The first argument bounds the number of
turns: each turn takes 8 from `partial_word_bits`. -/
def put_bytes (partial_word : Nat) : Nat → Int → List Nat → Int × List Nat
  | 0, partial_word_bits, fp_out => (partial_word_bits, fp_out)
  | k + 1, partial_word_bits, fp_out =>
    if partial_word_bits ≥ 8 then
      put_bytes partial_word k (partial_word_bits - 8)
        (fp_out ++ [(partial_word >>> (partial_word_bits - 8).toNat) % 256])
    else (partial_word_bits, fp_out)

/-- The function `write_code_word`.  `partial_word_bits` and `n->code_bits`
are of type `int`; the statements come in the order of the source: shift and
or, add, test against 64, write the full bytes, and for `symbol_size` 0 write
the bits left over. -/
def write_code_word (symbol : Nat → Nat) (symbol_size : Nat) (g : Globals) (fp_out : List Nat) :
    Except Fault (Globals × List Nat) := do
  match ← find_hash_table_node (fun _ => 0) symbol symbol_size false g with
  | (_, none, _) => throw Fault.find_failure
  | (idx, some k, g) =>
    let n ← slot (g.hash_table idx) k
    let d ← n.data
    let partial_word := shift_left g.partial_word d.code_bits ||| d.code
    let partial_word_bits := g.partial_word_bits + d.code_bits
    if partial_word_bits > 64 then throw Fault.too_many_bits
    let (partial_word_bits, fp_out) :=
      put_bytes partial_word partial_word_bits.toNat partial_word_bits fp_out
    if symbol_size = 0 ∧ partial_word_bits ≠ 0 then
      pure ({ g with partial_word := 0, partial_word_bits := 0 },
        fp_out ++ [shift_left partial_word (8 - partial_word_bits) % 256])
    else
      pure ({ g with partial_word := partial_word, partial_word_bits := partial_word_bits }, fp_out)

/-- Pass 1 of `encode`, up to the call of `make_Huffman_tree`: the globals
are initialised, the end-of-file mark is counted, then every symbol of the
scanning loop.  `stack` is what the local array `symbol` holds when `encode`
starts, `heap k` what the `symbol` array of the node allocated when the table
has `k` nodes holds. -/
def encode_pass1 (stack : Nat → Nat) (heap : Nat → Nat → Nat) (g : Globals) (input : List Nat) :
    Except Fault Globals := do
  let g := { g with partial_word := 0, partial_word_bits := 0 }
  let g := init_hash_table 100000 g
  let g ← count_symbol (heap g.hash_count) stack 0 g
  (scan_pass stack input).1.foldlM
    (fun g e => count_symbol (heap g.hash_count) e.symbol e.symbol_size g) g

/-- The function `encode` on the bytes of the input file; returns the bytes
of the file "encoded_data". -/
def encode (stack : Nat → Nat) (heap : Nat → Nat → Nat) (g : Globals) (input : List Nat) :
    Except Fault (List Nat) := do
  let g ← encode_pass1 stack heap g input
  let g ← make_Huffman_tree g
  let fp_out ← encode_Huffman_node g.Huffman_root []
  -- pass 2: the array `symbol` is as pass 1 left it
  let (calls, symbol) := scan_pass (scan_pass stack input).2 input
  let (g, fp_out) ← calls.foldlM
    (fun (s : Globals × List Nat) e => write_code_word e.symbol e.symbol_size s.1 s.2) (g, fp_out)
  let (_, fp_out) ← write_code_word symbol 0 g fp_out
  pure fp_out

/-- The body of the decoding loop of `decode` for the `i` bits left in `c`:
the node `n` after them.  The source does nothing at a leaf. -/
def decode_bits : Nat → Nat → node → Except Fault node
  | 0, _, n => .ok n
  | i + 1, c, n =>
    match n with
    | .NULL => .error .null_deref
    | .mk _ l r => decode_bits i (c <<< 1) (if c &&& 0x80 = 0 then l else r)

/-- The decoding loop of `decode`, byte by byte (`i` is 0 at each byte read,
8 bits are then used); the loop has no exit but `exit(1)`. -/
def decode_loop : List Nat → node → List Nat → Except Fault (List Nat)
  | [], _, _ => .error .unexpected_eof
  | c :: fp_in, n, fp_out => do
    let n ← decode_bits 8 c n
    decode_loop fp_in n fp_out

/-- The function `decode` on the bytes of the file "encoded_data"; returns
the bytes of the file "decoded_data". -/
def decode (fresh : Nat → Nat) (fp_in : List Nat) : Except Fault (List Nat) := do
  let (root, fp_in) ← decode_Huffman_node fresh fp_in
  let root ← assign_codes root
  decode_loop fp_in root []

/-- The byte array that holds only zero bytes, with zero bytes after it in
memory. -/
def zeros : Nat → Nat := fun _ => 0

/-- A 16-byte array given by its first bytes, with zero bytes after them in
the array and in the memory that follows it. -/
def array_of (bytes : List Nat) : Nat → Nat := fun i => bytes.getD i 0

/-! ## Paths and code words -/

/-- The node reached from `n` by a path of `left` (false, bit 0) and `right`
(true, bit 1) pointers; NULL once a NULL pointer is met. -/
def node.walk : node → List Bool → node
  | n, [] => n
  | .NULL, _ :: _ => .NULL
  | .mk _ l r, b :: p => node.walk (if b then r else l) p

/-- The binary number `b1..bd` of a path, most significant bit first. -/
def path_code (p : List Bool) : Nat :=
  p.foldl (fun acc b => 2 * acc + b.toNat) 0

/-- The `code_bits`-bit string of `code`, most significant bit first. -/
def code_string (code code_bits : Nat) : List Bool :=
  (List.range code_bits).map fun i => code.testBit (code_bits - 1 - i)

/-- A leaf: a node with no children. -/
def node.is_leaf : node → Bool
  | .mk _ .NULL .NULL => true
  | _ => false

/-- The code and the code length stored in a node. -/
def node.code_of : node → Option (Nat × Int)
  | .NULL => none
  | .mk d _ _ => some (d.code, d.code_bits)

/-- A leaf as `allocate_node` and `decode_Huffman_node` make it, holding the given bytes. -/
def leaf (bytes : List Nat) : node :=
  .mk ⟨array_of bytes, bytes.length, 0, 0, -1⟩ .NULL .NULL

/-- An internal node as `decode_Huffman_node` makes it. -/
def branch (l r : node) : node :=
  .mk ⟨zeros, 0, 0, 0, -1⟩ l r

/-- A tree with a leaf at depth `k`: `k` internal nodes down the right, each
with a leaf on the left. -/
def spine : Nat → node
  | 0 => leaf []
  | k + 1 => branch (leaf [97]) (spine k)

/-- The code `assign_code` gives to the node at the end of a path that starts
at a node given the code `code`. -/
def code_after (code : Nat) : List Bool → Nat
  | [] => code
  | b :: p => code_after (((code <<< 1) % 2 ^ 64 + b.toNat) % 2 ^ 64) p

/-- The code word of a node: the `code_bits`-bit string of its `code`. -/
def node.code_word : node → List Bool
  | .NULL => []
  | .mk d _ _ => code_string d.code d.code_bits.toNat

/-- Every slot of the min-heap below `min_heap_size` holds a node. -/
def heap_filled (g : Globals) : Prop :=
  g.min_heap_array.length = g.min_heap_size ∧ ∀ m ∈ g.min_heap_array, m ≠ node.NULL

/-- No chain of the hash table holds a NULL pointer as a node. -/
def table_ok (g : Globals) : Prop :=
  ∀ i, ∀ n ∈ g.hash_table i, n ≠ node.NULL

/-! ## The serialized tree of the specification -/

/-- The trees of the specification: a leaf carries its symbol, an internal
node its two children. -/
inductive Tree where
  | leaf (symbol : List Nat) : Tree
  | internal (left right : Tree) : Tree

/-- The pre-order format of the specification: an internal node is the byte
0xFF, then its left child, then its right child; a leaf is one length byte,
then that many symbol bytes. -/
def ser : Tree → List Nat
  | .leaf symbol => symbol.length :: symbol
  | .internal l r => 255 :: (ser l ++ ser r)

/-- Every leaf symbol has 0 to 16 bytes. -/
def Tree.symbols_fit : Tree → Bool
  | .leaf symbol => decide (symbol.length ≤ 16)
  | .internal l r => l.symbols_fit && r.symbols_fit

/-- The shape and the leaf symbols of the tree under a node pointer: a node
with no children is a leaf with the first `symbol_size` bytes of its array, a
node with two children an internal node; there is none for NULL or for a node
with one child. -/
def node.tree : node → Option Tree
  | .NULL => none
  | .mk d .NULL .NULL => some (.leaf ((List.range d.symbol_size).map d.symbol))
  | .mk _ l r =>
    match l.tree, r.tree with
    | some tl, some tr => some (.internal tl tr)
    | _, _ => none

/-- The array `symbol` after the bytes `bytes` are stored from index `i` on. -/
def store (symbol : Nat → Nat) : Nat → List Nat → (Nat → Nat)
  | _, [] => symbol
  | i, c :: cs => store (Function.update symbol i c) (i + 1) cs

/-- The nodes `decode_Huffman_node` allocates for a tree of the specification. -/
def node_of (fresh : Nat → Nat) : Tree → node
  | .leaf symbol => .mk ⟨store fresh 0 symbol, symbol.length, 0, 0, -1⟩ .NULL .NULL
  | .internal l r => .mk ⟨fresh, 0, 0, 0, -1⟩ (node_of fresh l) (node_of fresh r)

/-- Every node under the pointer has a `symbol_size` of at most 16. -/
def node.sizes_fit : node → Bool
  | .NULL => true
  | .mk d l r => decide (d.symbol_size ≤ 16) && l.sizes_fit && r.sizes_fit

/-- A place in a tree of the specification where the next node is to be read:
the root, or a place in the left child of an internal node, or a place in the
right child of an internal node whose left child has been read. -/
inductive Place where
  | root : Place
  | left (c : Place) : Place
  | right (t : Tree) (c : Place) : Place

/-- The bytes of the serialized tree that come before a place. -/
def Place.before : Place → List Nat
  | .root => []
  | .left c => 255 :: c.before
  | .right t c => 255 :: (ser t ++ c.before)

/-- Every leaf symbol of the subtrees read before the place has 0 to 16 bytes. -/
def Place.symbols_fit : Place → Bool
  | .root => true
  | .left c => c.symbols_fit
  | .right t c => t.symbols_fit && c.symbols_fit

/-! ## Looking a symbol up, and `min_heap_get` -/

/-- The node `find_hash_table_node(symbol,symbol_size,0)` returns, as
`write_code_word` gets it: the bytes and the size of its symbol, or none when
NULL is returned. -/
def found_symbol (symbol : Nat → Nat) (symbol_size : Nat) (g : Globals) :
    Except Fault (Option (List Nat × Nat)) := do
  match ← find_hash_table_node (fun _ => 0) symbol symbol_size false g with
  | (_, none, _) => pure none
  | (idx, some k, g) =>
    let n ← slot (g.hash_table idx) k
    let d ← n.data
    pure (some ((List.range d.symbol_size).map d.symbol, d.symbol_size))

/-- The function `swap` on the slots `i` and `j` of the min-heap array: the
contents of the two nodes the slots point at are exchanged, so each slot then
shows the node the other showed. -/
def swap (a : List node) (i j : Nat) : Except Fault (List node) := do
  let n1 ← slot a i
  let n2 ← slot a j
  let _ ← n1.data
  let _ ← n2.data
  pure ((a.set i n2).set j n1)

/-- The function `reorder_heap`.  The first argument bounds the depth of the
recursion: `smallest` is above `i` and below `min_heap_array_size` at every
recursive call, so `min_heap_array_size + 1` is enough. -/
def reorder_heap : Nat → Nat → Globals → Except Fault Globals
  | 0, _, _ => .error .out_of_fuel
  | k + 1, i, g => do
    let smallest ←
      if 2 * i + 1 < g.min_heap_array_size then do
        let c ← slot g.min_heap_array (2 * i + 1)
        let cd ← c.data
        let p ← slot g.min_heap_array i
        let pd ← p.data
        pure (if cd.count < pd.count then 2 * i + 1 else i)
      else pure i
    let smallest ←
      if 2 * i + 2 < g.min_heap_array_size then do
        let c ← slot g.min_heap_array (2 * i + 2)
        let cd ← c.data
        let m ← slot g.min_heap_array g.min_heap_size
        let md ← m.data
        pure (if cd.count < md.count then 2 * i + 2 else smallest)
      else pure smallest
    if smallest ≠ i then do
      let a ← swap g.min_heap_array i smallest
      reorder_heap k smallest { g with min_heap_array := a }
    else pure g

/-- The function `min_heap_get`: returns the node returned (NULL for an empty
heap) and the globals. -/
def min_heap_get (g : Globals) : Except Fault (node × Globals) :=
  if g.min_heap_size ≠ 0 then do
    let ret ← slot g.min_heap_array 0
    let min_heap_size := g.min_heap_size - 1
    let last ← slot g.min_heap_array min_heap_size
    let a := realloc_slots (g.min_heap_array.set 0 last) min_heap_size
    let g ← reorder_heap (g.min_heap_array_size + 1) 0
      { g with min_heap_array := a, min_heap_size := min_heap_size }
    pure (ret, g)
  else pure (.NULL, { g with min_heap_array := [] })

/-- A node with the given count and no children. -/
def counted (count : Nat) : node :=
  .mk ⟨zeros, 0, count, 0, -1⟩ .NULL .NULL

/-- The count stored in a node. -/
def node.count_of : node → Option Nat
  | .NULL => none
  | .mk d _ _ => some d.count

/-! ## The bit accumulator -/

/-- The statements of `write_code_word` after the node is found, on the code
and code length of the node: the new `partial_word`, the new
`partial_word_bits` and the file. -/
def push_code (d : Data) (symbol_size partial_word : Nat) (partial_word_bits : Int)
    (fp_out : List Nat) : Except Fault (Nat × Int × List Nat) := do
  let partial_word := shift_left partial_word d.code_bits ||| d.code
  let partial_word_bits := partial_word_bits + d.code_bits
  if partial_word_bits > 64 then throw Fault.too_many_bits
  let (partial_word_bits, fp_out) :=
    put_bytes partial_word partial_word_bits.toNat partial_word_bits fp_out
  if symbol_size = 0 ∧ partial_word_bits ≠ 0 then
    pure (0, 0, fp_out ++ [shift_left partial_word (8 - partial_word_bits) % 256])
  else
    pure (partial_word, partial_word_bits, fp_out)

/-- The data of the node `find_hash_table_node(symbol,symbol_size,0)` returns
to `write_code_word`; "find_hash_table_node() unexpected failure" when it
returns NULL. -/
def found_data (symbol : Nat → Nat) (symbol_size : Nat) (g : Globals) : Except Fault Data := do
  match ← find_hash_table_node (fun _ => 0) symbol symbol_size false g with
  | (_, none, _) => throw Fault.find_failure
  | (idx, some k, g) =>
    let n ← slot (g.hash_table idx) k
    n.data

/-- The bits of the bytes of a file, most significant bit of each byte first. -/
def bits_of_bytes (bytes : List Nat) : List Bool :=
  bytes.flatMap fun b => code_string b 8

/-- The code word stored in the data of a node. -/
def Data.code_word (d : Data) : List Bool :=
  code_string d.code d.code_bits.toNat

/-- The calls `write_code_word(fp_out,symbol,symbol_size)` made one after the
other, from the globals `g` and the file `fp_out`. -/
def write_calls (calls : List Emitted) (g : Globals) (fp_out : List Nat) :
    Except Fault (Globals × List Nat) :=
  calls.foldlM
    (fun (s : Globals × List Nat) e => write_code_word e.symbol e.symbol_size s.1 s.2)
    (g, fp_out)

/-! ## The order of the min-heap -/

/-- The count `min_heap_array[i]->count` of the node in slot `i` (0 when the
slot holds no node). -/
def count_at (a : List node) (i : Nat) : Nat :=
  match a[i]? with
  | some (.mk d _ _) => d.count
  | _ => 0

/-- The order `min_heap_put` sifts by, below `bound`: the node in slot `i / 2`
has at most the count of the node in slot `i`. -/
def heap_order (a : List node) (bound : Nat) : Prop :=
  ∀ j, 1 ≤ j → j < bound → count_at a (j / 2) ≤ count_at a j

/-- The state of the array inside the loop of `min_heap_put`, for a node of
count `c` still to be stored in slot `i`: the order holds between slots other
than `i`, and the slots whose parent slot is `i` hold counts that are at least
`c` and at least the count in the parent slot of `i`. -/
def heap_hole (a : List node) (i c : Nat) : Prop :=
  (∀ j, 1 ≤ j → j < a.length → j ≠ i → j / 2 ≠ i → count_at a (j / 2) ≤ count_at a j) ∧
  (∀ j, 1 ≤ j → j < a.length → j ≠ i → j / 2 = i →
    c ≤ count_at a j ∧ (1 ≤ i → count_at a (i / 2) ≤ count_at a j))

/-- The min-heap holds the nodes `ns` in its slots below `min_heap_size`, in
the order `min_heap_put` sifts by. -/
def heap_holds (g : Globals) (ns : List node) : Prop :=
  g.min_heap_array.length = g.min_heap_size ∧
  (∀ m ∈ g.min_heap_array, m ≠ node.NULL) ∧
  g.min_heap_array.Perm ns ∧
  heap_order g.min_heap_array g.min_heap_size

/-! ## A table with long codes -/

theorem range_one_eq : List.range 1 = [0] := rfl

theorem map_lt_six (c : Nat) : map c < 6 := by
  unfold map
  split_ifs <;> omega

theorem bytes_update_snoc (f : Nat → Nat) (n c : Nat) :
    (List.range (n + 1)).map (Function.update f n c) = (List.range n).map f ++ [c] := by
  rw [List.range_succ, List.map_append]
  congr 1
  · apply List.map_congr_left
    intro i hi
    have : i ≠ n := Nat.ne_of_lt (List.mem_range.mp hi)
    simp [Function.update, this]
  · simp

theorem first_run_cons (c : Nat) (cs : List Nat) :
    first_run (c :: cs) = c :: (cs.takeWhile (fun b => map b = map c)).take 15 := by
  simp [first_run, MAX_SYMBOL_SIZE, List.takeWhile_cons]

theorem first_run_length_pos (c : Nat) (cs : List Nat) : 0 < (first_run (c :: cs)).length := by
  rw [first_run_cons]; simp

theorem greedy_fuel_eq (f : Nat) :
    ∀ (g : Nat) (r : List Nat), r.length ≤ f → r.length ≤ g → greedy f r = greedy g r := by
  induction f with
  | zero =>
    intro g r hr _
    have : r = [] := List.length_eq_zero.mp (Nat.le_zero.mp hr)
    subst this
    cases g <;> rfl
  | succ f ih =>
    intro g r hr hg
    cases r with
    | nil => cases g <;> rfl
    | cons c cs =>
      cases g with
      | zero => simp at hg
      | succ g =>
        have hpos := first_run_length_pos c cs
        simp only [List.length_cons] at hr hg
        show first_run (c :: cs) :: greedy f _ = first_run (c :: cs) :: greedy g _
        rw [ih g _ (by simp only [List.length_drop, List.length_cons]; omega)
          (by simp only [List.length_drop, List.length_cons]; omega)]

theorem greedy_fuel (f : Nat) (r : List Nat) (h : r.length ≤ f) :
    greedy f r = greedy r.length r :=
  greedy_fuel_eq f r.length r h (Nat.le_refl _)

theorem greedy_cons (c : Nat) (cs : List Nat) :
    greedy (c :: cs).length (c :: cs) =
      first_run (c :: cs) ::
        greedy ((c :: cs).drop (first_run (c :: cs)).length).length
          ((c :: cs).drop (first_run (c :: cs)).length) := by
  have hpos := first_run_length_pos c cs
  show first_run (c :: cs) :: greedy cs.length _ = _
  rw [greedy_fuel cs.length _ (by simp only [List.length_drop, List.length_cons]; omega)]

theorem scan_loop_run (input : List Nat) : ∀ t : Scan, 0 < t.symbol_size →
    t.symbol_size ≤ MAX_SYMBOL_SIZE →
    (scan_loop input t).1.map Emitted.bytes =
      ((List.range t.symbol_size).map t.symbol ++
          (input.takeWhile (fun b => map b = t.symbol_type)).take
            (MAX_SYMBOL_SIZE - t.symbol_size)) ::
        greedy input.length
          (input.drop ((input.takeWhile (fun b => map b = t.symbol_type)).take
            (MAX_SYMBOL_SIZE - t.symbol_size)).length) := by
  induction input with
  | nil =>
    intro t h0 _
    simp [scan_loop, flush_symbol, h0, Emitted.bytes, greedy]
  | cons c cs ih =>
    intro t h0 h16
    by_cases hc : map c ≠ t.symbol_type ∨ t.symbol_size = MAX_SYMBOL_SIZE
    · have hext : ((c :: cs).takeWhile (fun b => map b = t.symbol_type)).take
          (MAX_SYMBOL_SIZE - t.symbol_size) = [] := by
        rcases hc with hc | hc
        · simp [List.takeWhile_cons, hc]
        · simp [hc]
      rw [hext]
      have hrec := ih ⟨Function.update t.symbol 0 c, 1, map c⟩ (by simp) (by simp [MAX_SYMBOL_SIZE])
      simp only [scan_loop, if_pos hc, List.map_append, hrec, flush_symbol, if_pos h0,
        List.map_cons, List.map_nil, Emitted.bytes, List.append_nil, List.length_nil,
        List.drop_zero, List.singleton_append]
      congr 1
      have hg := greedy_cons c cs
      rw [first_run_cons] at hg
      rw [hg]
      simp only [MAX_SYMBOL_SIZE, range_one_eq, List.map_cons, List.map_nil,
        Function.update_same, List.singleton_append, List.length_cons, List.drop_succ_cons]
      congr 1
      exact greedy_fuel _ _ (by simp only [List.length_drop]; omega)
    · have hty : map c = t.symbol_type := by
        by_contra h; exact hc (Or.inl h)
      have hlt : t.symbol_size < MAX_SYMBOL_SIZE := by
        have : t.symbol_size ≠ MAX_SYMBOL_SIZE := fun h => hc (Or.inr h)
        omega
      have hrec := ih ⟨Function.update t.symbol t.symbol_size c, t.symbol_size + 1,
        t.symbol_type⟩ (by simp) (by simpa using hlt)
      simp only [scan_loop, if_neg hc, hrec, bytes_update_snoc]
      have hk : MAX_SYMBOL_SIZE - t.symbol_size = (MAX_SYMBOL_SIZE - (t.symbol_size + 1)) + 1 := by
        omega
      rw [hk]
      simp only [List.takeWhile_cons, hty, decide_True, if_true, List.take_succ_cons,
        List.length_cons, List.drop_succ_cons, List.append_assoc, List.singleton_append]
      congr 1
      exact greedy_fuel_eq _ _ _ (by simp only [List.length_drop]; omega)
        (by simp only [List.length_drop, List.length_cons]; omega)

theorem tokens_eq_greedy (symbol : Nat → Nat) (input : List Nat) :
    tokens symbol input = greedy input.length input := by
  cases input with
  | nil => simp [tokens, scan_pass, scan_loop, flush_symbol, greedy]
  | cons c cs =>
    have hg := greedy_cons c cs
    rw [first_run_cons] at hg
    rw [hg]
    unfold tokens scan_pass
    by_cases hc : map c ≠ 0 ∨ 0 = MAX_SYMBOL_SIZE
    · have hrec := scan_loop_run cs ⟨Function.update symbol 0 c, 1, map c⟩ (by simp)
        (by simp [MAX_SYMBOL_SIZE])
      simp only [scan_loop, if_pos hc, List.map_append, hrec, flush_symbol]
      simp only [MAX_SYMBOL_SIZE, range_one_eq, List.map_cons, List.map_nil,
        Function.update_same, List.singleton_append, List.length_cons, List.drop_succ_cons,
        Nat.lt_irrefl, if_false, List.nil_append]
      congr 1
      exact greedy_fuel _ _ (by simp only [List.length_drop]; omega)
    · have hty : map c = 0 := by
        by_contra h; exact hc (Or.inl h)
      have hrec := scan_loop_run cs ⟨Function.update symbol 0 c, 0 + 1, 0⟩ (by simp)
        (by simp [MAX_SYMBOL_SIZE])
      simp only [scan_loop, if_neg hc, hrec]
      simp only [MAX_SYMBOL_SIZE, hty, Nat.zero_add, range_one_eq, List.map_cons, List.map_nil,
        Function.update_same, List.singleton_append, List.length_cons, List.drop_succ_cons]
      congr 1
      exact greedy_fuel _ _ (by simp only [List.length_drop]; omega)

theorem append_drop_of_isPrefix {α : Type} (l r : List α) (h : l <+: r) :
    l ++ r.drop l.length = r := by
  obtain ⟨t, rfl⟩ := h
  simp

theorem drop_takeWhile_length {α : Type} (p : α → Bool) (l : List α) :
    l.drop (l.takeWhile p).length = l.dropWhile p := by
  induction l with
  | nil => rfl
  | cons x xs ih =>
    by_cases hx : p x = true
    · simp [List.takeWhile_cons, List.dropWhile_cons, hx, ih]
    · simp [List.takeWhile_cons, List.dropWhile_cons, hx]

theorem headD_dropWhile_not {α : Type} (p : α → Bool) (l : List α) (d : α)
    (h : l.dropWhile p ≠ []) : p ((l.dropWhile p).headD d) = false := by
  have := List.head?_dropWhile_not p l
  cases hd : l.dropWhile p with
  | nil => exact absurd hd h
  | cons x xs =>
    rw [hd] at this
    simpa using this

theorem first_run_append_drop (r : List Nat) :
    first_run r ++ r.drop (first_run r).length = r :=
  append_drop_of_isPrefix _ _ ((List.take_prefix _ _).trans (List.takeWhile_prefix _))

theorem greedy_join (f : Nat) : ∀ r : List Nat, r.length ≤ f → (greedy f r).flatten = r := by
  induction f with
  | zero =>
    intro r hr
    have : r = [] := List.length_eq_zero.mp (Nat.le_zero.mp hr)
    subst this; rfl
  | succ f ih =>
    intro r hr
    cases r with
    | nil => rfl
    | cons c cs =>
      have hpos := first_run_length_pos c cs
      simp only [List.length_cons] at hr
      show (first_run (c :: cs) :: greedy f _).flatten = _
      rw [List.flatten_cons, ih _ (by simp only [List.length_drop, List.length_cons]; omega)]
      exact first_run_append_drop _

theorem greedy_split (f : Nat) : ∀ r : List Nat, ∀ pre tk post,
    greedy f r = pre ++ tk :: post → tk = first_run (r.drop pre.flatten.length) ∧ tk ≠ [] := by
  induction f with
  | zero =>
    intro r pre tk post h
    simp [greedy] at h
  | succ f ih =>
    intro r pre tk post h
    cases r with
    | nil => simp [greedy] at h
    | cons c cs =>
      have hpos := first_run_length_pos c cs
      change first_run (c :: cs) :: greedy f _ = _ at h
      cases pre with
      | nil =>
        simp only [List.nil_append, List.cons.injEq] at h
        constructor
        · simpa using h.1.symm
        · rw [← h.1]; exact List.ne_nil_of_length_pos hpos
      | cons p pre =>
        simp only [List.cons_append, List.cons.injEq] at h
        obtain ⟨hp, hrest⟩ := h
        have := ih _ pre tk post hrest
        rw [List.drop_drop] at this
        rw [List.flatten_cons, List.length_append, ← hp]
        exact this

theorem first_run_all (r : List Nat) :
    (first_run r).length ≤ MAX_SYMBOL_SIZE ∧ ∀ b ∈ first_run r, map b = map (r.headD 0) := by
  constructor
  · simp [first_run, List.length_take]
  · intro b hb
    have := List.mem_takeWhile_imp ((List.take_prefix _ _).subset hb)
    simpa using this

theorem first_run_headD (r : List Nat) : (first_run r).headD 0 = r.headD 0 := by
  cases r with
  | nil => rfl
  | cons c cs => rw [first_run_cons]; rfl

theorem first_run_next (r : List Nat) (h : (first_run r).length < MAX_SYMBOL_SIZE)
    (hne : r.drop (first_run r).length ≠ []) :
    map ((r.drop (first_run r).length).headD 0) ≠ map (r.headD 0) := by
  have hfull : first_run r = r.takeWhile (fun b => map b = map (r.headD 0)) := by
    unfold first_run at h ⊢
    apply List.take_of_length_le
    rw [List.length_take] at h
    omega
  have hdrop : r.drop (first_run r).length = r.dropWhile (fun b => map b = map (r.headD 0)) := by
    rw [hfull]
    exact drop_takeWhile_length _ _
  rw [hdrop] at hne ⊢
  have := headD_dropWhile_not (fun b => decide (map b = map (r.headD 0))) r 0 hne
  simpa using this

/-- C2: every symbol/symbol_size pair the tokenizer loop of `encode` hands to
`count_symbol` or `write_code_word` has a size between 1 and 16, and its bytes
all map to one of the six character classes; so the zero-length end-of-file
symbol is never produced by the loop. -/
theorem tokenizer_symbol_bounds (symbol : Nat → Nat) (input : List Nat) (e : Emitted)
    (h : e ∈ (scan_pass symbol input).1) :
    1 ≤ e.symbol_size ∧ e.symbol_size ≤ 16 ∧
      ∃ cls, cls < 6 ∧ ∀ i, i < e.symbol_size → map (e.symbol i) = cls := by
  have hmem : e.bytes ∈ greedy input.length input := by
    rw [← tokens_eq_greedy symbol input]
    exact List.mem_map_of_mem _ h
  obtain ⟨pre, post, hsplit⟩ := List.append_of_mem hmem
  obtain ⟨hrun, hne⟩ := greedy_split _ _ _ _ _ hsplit
  have hlen : e.bytes.length = e.symbol_size := by simp [Emitted.bytes]
  have hall := first_run_all (input.drop pre.flatten.length)
  rw [← hrun, hlen] at hall
  refine ⟨?_, hall.1, map ((input.drop pre.flatten.length).headD 0), map_lt_six _, ?_⟩
  · have : 0 < e.bytes.length := List.length_pos.mpr hne
    omega
  · intro i hi
    apply hall.2
    exact List.mem_map.mpr ⟨i, List.mem_range.mpr hi, rfl⟩

/-- The hypothesis of `tokenizer_symbol_bounds` holds for the one symbol of the input "a". -/
theorem tokenizer_symbol_bounds_witness :
    1 ≤ 1 ∧ 1 ≤ 16 ∧ ∃ cls, cls < 6 ∧ ∀ i, i < 1 →
      map (Function.update (fun _ => 0) 0 97 i) = cls :=
  tokenizer_symbol_bounds (fun _ => 0) [97] ⟨Function.update (fun _ => 0) 0 97, 1⟩
    (List.Mem.head _)

/-- C3: the symbols emitted by the tokenizer loop of `encode` are the greedy
segmentation of the input: concatenated they give the input back, each one is
the longest run of one character class at the head of the input not yet
consumed, cut at 16 bytes, and a symbol is followed by one of the same class
only when it has exactly 16 bytes; "aaa bbb" yields "aaa", " ", "bbb". -/
theorem tokenizer_greedy_segmentation (symbol : Nat → Nat) (input : List Nat) :
    (tokens symbol input).flatten = input ∧
    (∀ pre tk post, tokens symbol input = pre ++ tk :: post →
      tk = ((input.drop pre.flatten.length).takeWhile
              (fun b => map b = map ((input.drop pre.flatten.length).headD 0))).take 16) ∧
    (∀ pre t1 t2 post, tokens symbol input = pre ++ t1 :: t2 :: post →
      map (t1.headD 0) = map (t2.headD 0) → t1.length = 16) ∧
    tokens symbol [97, 97, 97, 32, 98, 98, 98] = [[97, 97, 97], [32], [98, 98, 98]] := by
  refine ⟨?_, ?_, ?_, ?_⟩
  · rw [tokens_eq_greedy]
    exact greedy_join _ _ (Nat.le_refl _)
  · intro pre tk post h
    rw [tokens_eq_greedy] at h
    exact (greedy_split _ _ _ _ _ h).1
  · intro pre t1 t2 post h hcls
    rw [tokens_eq_greedy] at h
    obtain ⟨h1, _⟩ := greedy_split _ _ pre t1 (t2 :: post) h
    have h' : greedy input.length input = (pre ++ [t1]) ++ t2 :: post := by
      rw [h]; simp
    obtain ⟨h2, hne2⟩ := greedy_split _ _ (pre ++ [t1]) t2 post h'
    have hk : (pre ++ [t1]).flatten.length = pre.flatten.length + t1.length := by simp
    rw [hk, ← List.drop_drop] at h2
    have hall := first_run_all (input.drop pre.flatten.length)
    rw [← h1] at hall
    by_contra hlen
    have hlt : (first_run (input.drop pre.flatten.length)).length < MAX_SYMBOL_SIZE := by
      rw [← h1]
      have := hall.1
      simp only [MAX_SYMBOL_SIZE] at this ⊢
      omega
    have hd : (input.drop pre.flatten.length).drop
        (first_run (input.drop pre.flatten.length)).length ≠ [] := by
      rw [← h1]
      intro hnil
      rw [hnil] at h2
      exact hne2 h2
    have hnext := first_run_next _ hlt hd
    rw [← h1] at hnext
    apply hnext
    rw [← first_run_headD (input.drop pre.flatten.length), ← h1,
      ← first_run_headD (List.drop t1.length _), ← h2]
    exact hcls.symm
  · simp [tokens, scan_pass, scan_loop, flush_symbol, map, MAX_SYMBOL_SIZE, Emitted.bytes,
      List.range_succ, Function.update]

/-- The second conjunct of `tokenizer_greedy_segmentation` at "aaa bbb": the symbol
after "aaa" is the run " ". -/
theorem tokenizer_greedy_segmentation_witness :
    [32] = (([97, 97, 97, 32, 98, 98, 98].drop [[97, 97, 97]].flatten.length).takeWhile
      (fun b => map b = map (([97, 97, 97, 32, 98, 98, 98].drop
        [[97, 97, 97]].flatten.length).headD 0))).take 16 :=
  (tokenizer_greedy_segmentation (fun _ => 0) [97, 97, 97, 32, 98, 98, 98]).2.1
    [[97, 97, 97]] [32] [[98, 98, 98]]
    (tokenizer_greedy_segmentation (fun _ => 0) [97, 97, 97, 32, 98, 98, 98]).2.2.2

/-! ## Code assignment -/

theorem foldl_step_mod (p : List Bool) : ∀ x : Nat,
    (p.foldl (fun acc b => 2 * acc + b.toNat) (x % 2 ^ 64)) % 2 ^ 64 =
      (p.foldl (fun acc b => 2 * acc + b.toNat) x) % 2 ^ 64 := by
  induction p with
  | nil => intro x; simp
  | cons b p ih =>
    intro x
    simp only [List.foldl_cons]
    rw [← ih (2 * (x % 2 ^ 64) + b.toNat), ← ih (2 * x + b.toNat)]
    congr 2
    omega

theorem code_after_eq (p : List Bool) : ∀ c : Nat, c < 2 ^ 64 →
    code_after c p = (p.foldl (fun acc b => 2 * acc + b.toNat) c) % 2 ^ 64 := by
  induction p with
  | nil =>
    intro c hc
    show c = c % 2 ^ 64
    exact (Nat.mod_eq_of_lt hc).symm
  | cons b p ih =>
    intro c _
    simp only [code_after, List.foldl_cons]
    rw [ih _ (Nat.mod_lt _ (by norm_num)), foldl_step_mod, Nat.shiftLeft_eq,
      ← foldl_step_mod p (c * 2 ^ 1 % 2 ^ 64 + b.toNat), ← foldl_step_mod p (2 * c + b.toNat)]
    congr 2
    omega

theorem code_after_zero (p : List Bool) : code_after 0 p = path_code p % 2 ^ 64 :=
  code_after_eq p 0 (by norm_num)

theorem walk_NULL (p : List Bool) : node.NULL.walk p = node.NULL := by
  cases p <;> rfl

theorem walk_append (p q : List Bool) : ∀ n : node, n.walk (p ++ q) = (n.walk p).walk q := by
  induction p with
  | nil => intro n; cases n <;> simp [node.walk]
  | cons b p ih =>
    intro n
    cases n with
    | NULL => simp [node.walk, walk_NULL]
    | mk d l r => simp only [List.cons_append, node.walk]; exact ih _

theorem walk_assign_code (p : List Bool) : ∀ (n : node) (c : Nat) (k : Int),
    (assign_code c k n).walk p = assign_code (code_after c p) (k + p.length) (n.walk p) := by
  induction p with
  | nil => intro n c k; simp [node.walk, code_after]
  | cons b p ih =>
    intro n c k
    cases n with
    | NULL => simp [assign_code, node.walk]
    | mk d l r =>
      have hk : k + 1 + (p.length : Int) = k + ((b :: p).length : Int) := by
        simp only [List.length_cons]; push_cast; ring
      cases b
      · simp only [assign_code, node.walk, code_after, Bool.false_eq_true, if_false, ih, hk,
          Bool.toNat_false]
      · simp only [assign_code, node.walk, code_after, if_true, ih, hk, Bool.toNat_true]

theorem assign_codes_eq (d : Data) (l r : node) :
    assign_codes (.mk d l r) = .ok (assign_code 0 0 (.mk d l r)) := rfl

theorem is_leaf_assign_code (c : Nat) (k : Int) (n : node) :
    (assign_code c k n).is_leaf ↔ n.is_leaf := by
  cases n with
  | NULL => simp [assign_code, node.is_leaf]
  | mk d l r => cases l <;> cases r <;> simp [assign_code, node.is_leaf]

theorem path_code_snoc (p : List Bool) (b : Bool) :
    path_code (p ++ [b]) = 2 * path_code p + b.toNat := by
  simp [path_code, List.foldl_append]

theorem path_code_lt (p : List Bool) : path_code p < 2 ^ p.length := by
  induction p using List.reverseRecOn with
  | nil => simp [path_code]
  | append_singleton p b ih =>
    rw [path_code_snoc, List.length_append, List.length_singleton, Nat.pow_succ]
    have : b.toNat ≤ 1 := by cases b <;> simp
    omega

theorem code_string_succ (c n : Nat) :
    code_string c (n + 1) = code_string (c / 2) n ++ [c.testBit 0] := by
  unfold code_string
  rw [List.range_succ, List.map_append]
  congr 1
  · apply List.map_congr_left
    intro i hi
    have hi := List.mem_range.mp hi
    have : n + 1 - 1 - i = (n - 1 - i) + 1 := by omega
    rw [this, Nat.testBit_succ]
  · simp

theorem code_string_path_code (p : List Bool) : code_string (path_code p) p.length = p := by
  induction p using List.reverseRecOn with
  | nil => rfl
  | append_singleton p b ih =>
    rw [path_code_snoc, List.length_append, List.length_singleton, code_string_succ]
    have h2 : (2 * path_code p + b.toNat) / 2 = path_code p := by
      have : b.toNat ≤ 1 := by cases b <;> simp
      omega
    rw [h2, ih]
    congr 1
    cases b <;> simp [Nat.testBit_zero]; omega

theorem walk_assign_codes (d : Data) (l r : node) (p : List Bool) :
    (assign_code 0 0 (.mk d l r)).walk p =
      assign_code (path_code p % 2 ^ 64) p.length ((node.mk d l r).walk p) := by
  rw [walk_assign_code, code_after_zero, Int.zero_add]

theorem assign_code_mk (c : Nat) (k : Int) (d0 : Data) (l0 r0 : node) :
    ∃ l1 r1, assign_code c k (.mk d0 l0 r0) =
      .mk { d0 with code := c, code_bits := k } l1 r1 :=
  ⟨_, _, rfl⟩

/-- C8: after the root is given code 0 and code_bits 0 and `expand_binary_code`
has run, the node at the end of every path `b1..bd` from the root (0 = left,
1 = right) has code_bits = d and code = the binary number `b1..bd` modulo 2^64;
the run returns and leaves the shape of the tree as it was. -/
theorem expand_binary_code_paths (d : Data) (l r : node) :
    ∃ t, assign_codes (.mk d l r) = .ok t ∧
      (∀ p, t.walk p = .NULL ↔ (node.mk d l r).walk p = .NULL) ∧
      ∀ (p : List Bool) (d0 : Data) (l0 r0 : node), (node.mk d l r).walk p = .mk d0 l0 r0 →
        ∃ d1 l1 r1, t.walk p = .mk d1 l1 r1 ∧ d1.code_bits = p.length ∧
          d1.code = path_code p % 2 ^ 64 ∧ d1.symbol = d0.symbol ∧
          d1.symbol_size = d0.symbol_size := by
  refine ⟨_, assign_codes_eq d l r, ?_, ?_⟩
  · intro p
    rw [walk_assign_codes]
    cases (node.mk d l r).walk p <;> simp [assign_code]
  · intro p d0 l0 r0 h
    rw [walk_assign_codes, h]
    obtain ⟨l1, r1, h1⟩ := assign_code_mk (path_code p % 2 ^ 64) p.length d0 l0 r0
    exact ⟨_, l1, r1, h1, rfl, rfl, rfl, rfl⟩

/-- In the tree with the leaves "a" (left) and "" (right), the right leaf gets
the one-bit code 1. -/
theorem expand_binary_code_paths_witness :
    ∃ t, assign_codes (branch (leaf [97]) (leaf [])) = .ok t ∧
      ∃ d1 l1 r1, t.walk [true] = .mk d1 l1 r1 ∧ d1.code_bits = ([true] : List Bool).length ∧
        d1.code = path_code [true] % 2 ^ 64 ∧ d1.symbol = array_of [] ∧ d1.symbol_size = 0 :=
  match expand_binary_code_paths ⟨zeros, 0, 0, 0, -1⟩ (leaf [97]) (leaf []) with
  | ⟨t, ht, _, h⟩ => ⟨t, ht, h [true] ⟨array_of [], 0, 0, 0, -1⟩ .NULL .NULL rfl⟩

/-- C7: prefix-freeness.  For every tree with no leaf deeper than 64 (whether
or not each internal node has two children), after the root is given code 0 and
code_bits 0 and `expand_binary_code` has run, the leaves are where they were
and for any two distinct leaves a and b the code_bits(a)-bit string of code(a)
is not an initial segment of the code_bits(b)-bit string of code(b). -/
theorem expand_binary_code_codes_free (d : Data) (l r : node)
    (hdepth : ∀ p, ((node.mk d l r).walk p).is_leaf → p.length ≤ 64) :
    ∃ t, assign_codes (.mk d l r) = .ok t ∧
      (∀ p, (t.walk p).is_leaf ↔ ((node.mk d l r).walk p).is_leaf) ∧
      ∀ pa pb : List Bool, pa ≠ pb → (t.walk pa).is_leaf → (t.walk pb).is_leaf →
        ¬ (t.walk pa).code_word <+: (t.walk pb).code_word := by
  have hleaf : ∀ p, ((assign_code 0 0 (.mk d l r)).walk p).is_leaf ↔
      ((node.mk d l r).walk p).is_leaf := by
    intro p
    rw [walk_assign_codes, is_leaf_assign_code]
  have hword : ∀ p, ((assign_code 0 0 (.mk d l r)).walk p).is_leaf →
      ((assign_code 0 0 (.mk d l r)).walk p).code_word = p := by
    intro p hp
    have hlen := hdepth p ((hleaf p).mp hp)
    rw [walk_assign_codes] at hp ⊢
    cases hw : (node.mk d l r).walk p with
    | NULL => rw [hw] at hp; simp [assign_code, node.is_leaf] at hp
    | mk d0 l0 r0 =>
      obtain ⟨l1, r1, h1⟩ := assign_code_mk (path_code p % 2 ^ 64) p.length d0 l0 r0
      rw [h1]
      have hlt : path_code p < 2 ^ 64 :=
        Nat.lt_of_lt_of_le (path_code_lt p) (Nat.pow_le_pow_right (by norm_num) hlen)
      simp only [node.code_word, Nat.mod_eq_of_lt hlt, Int.toNat_ofNat]
      exact code_string_path_code p
  refine ⟨_, assign_codes_eq d l r, hleaf, ?_⟩
  intro pa pb hne ha hb hpre
  rw [hword pa ha, hword pb hb] at hpre
  obtain ⟨q, hq⟩ := hpre
  cases q with
  | nil => exact hne (by simpa using hq)
  | cons b q =>
    have ha0 := (hleaf pa).mp ha
    have hb0 := (hleaf pb).mp hb
    rw [← hq, walk_append] at hb0
    cases hw : (node.mk d l r).walk pa with
    | NULL => rw [hw] at ha0; simp [node.is_leaf] at ha0
    | mk d0 l0 r0 =>
      rw [hw] at ha0 hb0
      cases l0 <;> cases r0 <;> simp [node.is_leaf] at ha0
      simp [node.walk, walk_NULL, node.is_leaf] at hb0

/-- In the tree with the leaves "a" (left) and "" (right) the two code words,
0 and 1, are not initial segments of each other. -/
theorem expand_binary_code_codes_free_witness :
    ∃ t, assign_codes (branch (leaf [97]) (leaf [])) = .ok t ∧
      (∀ p, (t.walk p).is_leaf ↔ ((branch (leaf [97]) (leaf [])).walk p).is_leaf) ∧
      ∀ pa pb : List Bool, pa ≠ pb → (t.walk pa).is_leaf → (t.walk pb).is_leaf →
        ¬ (t.walk pa).code_word <+: (t.walk pb).code_word :=
  expand_binary_code_codes_free ⟨zeros, 0, 0, 0, -1⟩ (leaf [97]) (leaf []) (by
    intro p hp
    match p, hp with
    | [], hp => simp
    | [_], _ => simp
    | false :: _ :: q, hp => simp [node.walk, leaf, walk_NULL, node.is_leaf] at hp
    | true :: _ :: q, hp => simp [node.walk, leaf, walk_NULL, node.is_leaf] at hp)

/-- C9, as stated, fails: for the tree with a leaf at depth 65 down the right
spine, code assignment returns; it does not stop with "Too many bits in a
code word", and the leaf at depth 65 gets code_bits 65 and the 64-bit code
2^64 - 1, the low 64 bits of its path of 65 ones. -/
theorem assign_codes_deep_returns :
    (∃ t, assign_codes (spine 65) = .ok t ∧
      (t.walk (List.replicate 65 true)).code_of = some (2 ^ 64 - 1, 65)) ∧
    assign_codes (spine 65) ≠ .error .too_many_bits := by
  constructor
  · refine ⟨_, assign_codes_eq _ _ _, ?_⟩
    rw [walk_assign_codes]
    have hw : (node.mk ⟨zeros, 0, 0, 0, -1⟩ (leaf [97]) (spine 64)).walk
        (List.replicate 65 true) = leaf [] := by
      simp [List.replicate, node.walk, spine, branch, leaf]
    have hc : path_code (List.replicate 65 true) % 2 ^ 64 = 2 ^ 64 - 1 := by
      simp [List.replicate, path_code]
    rw [hw, hc]
    rfl
  · intro h
    cases h

theorem path_code_append (a b : List Bool) :
    path_code (a ++ b) = path_code a * 2 ^ b.length + path_code b := by
  induction b using List.reverseRecOn with
  | nil => simp [path_code]
  | append_singleton b x ih =>
    rw [← List.append_assoc, path_code_snoc, path_code_snoc, ih, List.length_append,
      List.length_singleton, Nat.pow_succ]
    ring

theorem path_code_mod (p : List Bool) (h : 64 ≤ p.length) :
    path_code p % 2 ^ 64 = path_code (p.drop (p.length - 64)) := by
  have hlen : (p.drop (p.length - 64)).length = 64 := by
    rw [List.length_drop]; omega
  conv_lhs => rw [← List.take_append_drop (p.length - 64) p]
  rw [path_code_append, hlen, Nat.mul_comm, Nat.mul_add_mod]
  apply Nat.mod_eq_of_lt
  have := path_code_lt (p.drop (p.length - 64))
  rwa [hlen] at this

/-- C9, amended: for every tree that has a leaf deeper than 64, code
assignment from a root with code 0 and code_bits 0 returns without failure,
and that leaf gets code_bits equal to its depth and a code equal to the
binary number of its path modulo 2^64, which is the number of the last 64
bits of the path: the bits before them are dropped. -/
theorem assign_codes_deep_truncates (d : Data) (l r : node) (p : List Bool) (d0 : Data)
    (hdeep : 64 < p.length) (hleaf : (node.mk d l r).walk p = .mk d0 .NULL .NULL) :
    ∃ t d1, assign_codes (.mk d l r) = .ok t ∧ t.walk p = .mk d1 .NULL .NULL ∧
      d1.code_bits = p.length ∧ d1.code = path_code p % 2 ^ 64 ∧
      d1.code = path_code (p.drop (p.length - 64)) := by
  refine ⟨_, { d0 with code := path_code p % 2 ^ 64, code_bits := p.length },
    assign_codes_eq d l r, ?_, rfl, rfl, path_code_mod p (Nat.le_of_lt hdeep)⟩
  rw [walk_assign_codes, hleaf]
  rfl

/-- The leaf at depth 65 of the right spine: its code is the number of 65 ones
modulo 2^64. -/
theorem assign_codes_deep_truncates_witness :
    64 < (List.replicate 65 true).length ∧
    ∃ t d1, assign_codes (spine 65) = .ok t ∧
      t.walk (List.replicate 65 true) = .mk d1 .NULL .NULL ∧
      d1.code_bits = (List.replicate 65 true).length ∧
      d1.code = path_code (List.replicate 65 true) % 2 ^ 64 ∧
      d1.code = path_code ((List.replicate 65 true).drop
        ((List.replicate 65 true).length - 64)) :=
  ⟨by decide,
    assign_codes_deep_truncates ⟨zeros, 0, 0, 0, -1⟩ (leaf [97]) (spine 64)
      (List.replicate 65 true) ⟨array_of [], 0, 0, 0, -1⟩ (by decide)
      (by simp [List.replicate, node.walk, spine, branch, leaf])⟩

/-! ## The min-heap and `make_Huffman_tree` -/

theorem sift_up_ok (n : node) (d : Data) (l r : node) (hn : n = .mk d l r) :
    ∀ (k i : Nat) (a : List node), i < a.length →
      (∀ j m, j ≠ i → a[j]? = some m → m ≠ node.NULL) →
      ∃ i1 a1, sift_up n k i a = .ok (i1, a1) ∧ a1.length = a.length ∧ i1 < a1.length ∧
        ∀ j m, j ≠ i1 → a1[j]? = some m → m ≠ node.NULL := by
  subst hn
  intro k
  induction k with
  | zero => intro i a hi hinv; exact ⟨i, a, rfl, rfl, hi, hinv⟩
  | succ k ih =>
    intro i a hi hinv
    by_cases h0 : i = 0
    · exact ⟨i, a, by simp [sift_up, h0], rfl, hi, hinv⟩
    · have hlt : i / 2 < i := Nat.div_lt_self (Nat.pos_of_ne_zero h0) (by norm_num)
      have hp : a[i / 2]? = some a[i / 2] := List.getElem?_eq_getElem (by omega)
      have hpn := hinv (i / 2) _ (Nat.ne_of_lt hlt) hp
      cases hpc : a[i / 2] with
      | NULL => exact absurd hpc hpn
      | mk pd pl pr =>
        rw [hpc] at hp
        by_cases hc : d.count < pd.count
        · obtain ⟨i1, a1, h1, h2, h3, h4⟩ := ih (i / 2) (a.set i (.mk pd pl pr))
            (by rw [List.length_set]; omega)
            (by
              intro j m hj hm
              by_cases hji : j = i
              · subst hji
                rw [List.getElem?_set_self hi] at hm
                cases hm
                simp
              · rw [List.getElem?_set_ne (Ne.symm hji)] at hm
                exact hinv j m hji hm)
          refine ⟨i1, a1, ?_, by rw [h2, List.length_set], h3, h4⟩
          simp [sift_up, h0, node.data, slot, hp, hc, h1, bind, Except.bind]
        · exact ⟨i, a, by simp [sift_up, h0, node.data, slot, hp, hc, bind, Except.bind, pure,
            Except.pure], rfl, hi, hinv⟩

theorem min_heap_put_ok (d : Data) (l r : node) (g : Globals) (h : heap_filled g) :
    ∃ g1, min_heap_put (.mk d l r) g = .ok g1 ∧ heap_filled g1 ∧
      g1.Huffman_root = g.Huffman_root ∧ g1.hash_table = g.hash_table := by
  obtain ⟨hlen, hall⟩ := h
  have ha : (if g.min_heap_size ≠ 0 then realloc_slots g.min_heap_array (g.min_heap_size + 1)
      else realloc_slots [] 1) = g.min_heap_array ++ [node.NULL] := by
    by_cases hs : g.min_heap_size = 0
    · have : g.min_heap_array = [] := List.length_eq_zero.mp (hlen.trans hs)
      simp [hs, this, realloc_slots]
    · simp only [ne_eq, hs, not_false_eq_true, if_true, realloc_slots, ← hlen]
      rw [List.take_of_length_le (Nat.le_succ _)]
      simp
  obtain ⟨i1, a1, h1, h2, h3, h4⟩ := sift_up_ok (.mk d l r) d l r rfl g.min_heap_size
    g.min_heap_size (g.min_heap_array ++ [node.NULL]) (by simp [hlen])
    (by
      intro j m hj hm
      have hjl : j < g.min_heap_array.length := by
        have := (List.getElem?_eq_some.mp hm).1
        simp only [List.length_append, List.length_singleton] at this
        omega
      rw [List.getElem?_append_left hjl] at hm
      exact hall m (List.mem_iff_getElem?.mpr ⟨j, hm⟩))
  refine ⟨{ g with min_heap_array := a1.set i1 (.mk d l r),
                   min_heap_size := g.min_heap_size + 1 }, ?_, ⟨?_, ?_⟩, rfl, rfl⟩
  · simp only [min_heap_put, ha, h1, bind, Except.bind, pure, Except.pure]
  · simp [h2, hlen]
  · intro m hm
    obtain ⟨j, hj⟩ := List.mem_iff_getElem?.mp hm
    by_cases hji : j = i1
    · subst hji
      rw [List.getElem?_set_self h3] at hj
      cases hj
      simp
    · rw [List.getElem?_set_ne (Ne.symm hji)] at hj
      exact h4 j m hji hj

theorem fill_chain_ok (chain : List node) : ∀ g : Globals, heap_filled g →
    (∀ n ∈ chain, n ≠ node.NULL) →
    ∃ g1, chain.foldlM (fun g n => min_heap_put n g) g = .ok g1 ∧ heap_filled g1 ∧
      g1.Huffman_root = g.Huffman_root ∧ g1.hash_table = g.hash_table := by
  induction chain with
  | nil => intro g h _; exact ⟨g, rfl, h, rfl, rfl⟩
  | cons n ns ih =>
    intro g h hn
    cases n with
    | NULL => exact absurd rfl (hn _ (List.mem_cons_self _ _))
    | mk d l r =>
      obtain ⟨g1, e1, f1, r1, t1⟩ := min_heap_put_ok d l r g h
      obtain ⟨g2, e2, f2, r2, t2⟩ := ih g1 f1 (fun n hm => hn n (List.mem_cons_of_mem _ hm))
      refine ⟨g2, ?_, f2, r2.trans r1, t2.trans t1⟩
      simp only [List.foldlM_cons, e1, bind, Except.bind]
      exact e2

theorem fill_heap_ok (indices : List Nat) : ∀ g : Globals, heap_filled g → table_ok g →
    ∃ g1, indices.foldlM
        (fun g i => (g.hash_table i).foldlM (fun g n => min_heap_put n g) g) g = .ok g1 ∧
      heap_filled g1 ∧ g1.Huffman_root = g.Huffman_root ∧ g1.hash_table = g.hash_table := by
  induction indices with
  | nil => intro g h _; exact ⟨g, rfl, h, rfl, rfl⟩
  | cons i rest ih =>
    intro g h ht
    obtain ⟨g1, e1, f1, r1, t1⟩ := fill_chain_ok (g.hash_table i) g h (ht i)
    obtain ⟨g2, e2, f2, r2, t2⟩ := ih g1 f1 (by intro j; rw [t1]; exact ht j)
    refine ⟨g2, ?_, f2, r2.trans r1, t2.trans t1⟩
    simp only [List.foldlM_cons, e1, bind, Except.bind]
    exact e2

theorem make_Huffman_tree_root_NULL (g : Globals) (h2 : 2 ≤ g.hash_count)
    (hroot : g.Huffman_root = node.NULL) (ht : table_ok g) :
    make_Huffman_tree g = .error .null_deref := by
  obtain ⟨g1, e1, _, r1, _⟩ := fill_heap_ok (List.range g.hash_table_size)
    (create_min_heap g.hash_count g) ⟨rfl, by simp [create_min_heap]⟩ ht
  have hlt : ¬ g.hash_count < 2 := by omega
  have hr : g1.Huffman_root = node.NULL := by rw [r1]; exact hroot
  unfold make_Huffman_tree
  simp only [hlt, if_false]
  have e1b : (List.range (create_min_heap g.hash_count g).hash_table_size).foldlM
      (fun g i => (g.hash_table i).foldlM (fun g n => min_heap_put n g) g)
      (create_min_heap g.hash_count g) = .ok g1 := e1
  simp only [bind, Except.bind, pure, Except.pure, e1b, hr, assign_codes]

/-! ## Pass 1 and `encode` -/

theorem modify_incr_count_ne_NULL (k : Nat) : ∀ chain : List node,
    (∀ n ∈ chain, n ≠ node.NULL) → ∀ n ∈ chain.modify node.incr_count k, n ≠ node.NULL := by
  induction k with
  | zero =>
    intro chain h n hn
    cases chain with
    | nil => simp at hn
    | cons c cs =>
      simp only [List.modify_zero_cons, List.mem_cons] at hn
      rcases hn with rfl | hn
      · have := h c (List.mem_cons_self _ _)
        cases c with
        | NULL => exact absurd rfl this
        | mk d l r => simp [node.incr_count]
      · exact h n (List.mem_cons_of_mem _ hn)
  | succ k ih =>
    intro chain h n hn
    cases chain with
    | nil => simp at hn
    | cons c cs =>
      simp only [List.modify_succ_cons, List.mem_cons] at hn
      rcases hn with rfl | hn
      · exact h _ (List.mem_cons_self _ _)
      · exact ih cs (fun m hm => h m (List.mem_cons_of_mem _ hm)) n hn

theorem count_symbol_frame (fresh symbol : Nat → Nat) (symbol_size : Nat) (g g1 : Globals)
    (h : count_symbol fresh symbol symbol_size g = .ok g1) (ht : table_ok g) :
    table_ok g1 ∧ g1.Huffman_root = g.Huffman_root := by
  unfold count_symbol find_hash_table_node at h
  cases hh : hash_function g.hash_table_size symbol symbol_size with
  | error e => simp [hh, bind, Except.bind] at h
  | ok idx =>
    cases hc : chain_find symbol (g.hash_table idx) with
    | error e => simp [hh, hc, bind, Except.bind] at h
    | ok found =>
      cases found with
      | some k =>
        simp only [hh, hc, bind, Except.bind, pure, Except.pure, Except.ok.injEq] at h
        subst h
        refine ⟨?_, rfl⟩
        intro i n hn
        by_cases hi : i = idx
        · subst hi
          simp only [Function.update_same] at hn
          exact modify_incr_count_ne_NULL k _ (ht i) n hn
        · simp only [Function.update_noteq hi] at hn
          exact ht i n hn
      | none =>
        simp only [hh, hc, bind, Except.bind, pure, Except.pure, if_true,
          Except.ok.injEq] at h
        subst h
        refine ⟨?_, rfl⟩
        intro i n hn
        by_cases hi : i = idx
        · subst hi
          simp only [Function.update_same, List.modify_zero_cons, List.mem_cons] at hn
          rcases hn with rfl | hn
          · simp [new_node, node.incr_count]
          · exact ht i n hn
        · simp only [Function.update_noteq hi] at hn
          exact ht i n hn

theorem count_calls_frame (heap : Nat → Nat → Nat) (calls : List Emitted) :
    ∀ g g1 : Globals,
      calls.foldlM (fun g e => count_symbol (heap g.hash_count) e.symbol e.symbol_size g) g
        = .ok g1 →
      table_ok g → table_ok g1 ∧ g1.Huffman_root = g.Huffman_root := by
  induction calls with
  | nil =>
    intro g g1 h ht
    simp only [List.foldlM_nil, pure, Except.pure, Except.ok.injEq] at h
    subst h
    exact ⟨ht, rfl⟩
  | cons e es ih =>
    intro g g1 h ht
    simp only [List.foldlM_cons] at h
    cases hc : count_symbol (heap g.hash_count) e.symbol e.symbol_size g with
    | error f => simp [hc, bind, Except.bind] at h
    | ok g2 =>
      simp only [hc, bind, Except.bind] at h
      obtain ⟨t2, r2⟩ := count_symbol_frame _ _ _ _ _ hc ht
      obtain ⟨t1, r1⟩ := ih g2 g1 h t2
      exact ⟨t1, r1.trans r2⟩

theorem encode_pass1_frame (stack : Nat → Nat) (heap : Nat → Nat → Nat) (g g1 : Globals)
    (input : List Nat) (h : encode_pass1 stack heap g input = .ok g1) :
    table_ok g1 ∧ g1.Huffman_root = g.Huffman_root := by
  unfold encode_pass1 at h
  cases hc : count_symbol (heap (init_hash_table 100000
      { g with partial_word := 0, partial_word_bits := 0 }).hash_count) stack 0
      (init_hash_table 100000 { g with partial_word := 0, partial_word_bits := 0 }) with
  | error f => simp [hc, bind, Except.bind] at h
  | ok g2 =>
    simp only [hc, bind, Except.bind] at h
    obtain ⟨t2, r2⟩ := count_symbol_frame _ _ _ _ _ hc
      (by intro i n hn; simp [init_hash_table] at hn)
    obtain ⟨t1, r1⟩ := count_calls_frame heap _ g2 g1 h t2
    exact ⟨t1, r1.trans r2⟩

theorem encode_of_pass1 (stack : Nat → Nat) (heap : Nat → Nat → Nat) (g g1 : Globals)
    (input : List Nat) (hroot : g.Huffman_root = node.NULL)
    (h : encode_pass1 stack heap g input = .ok g1) :
    encode stack heap g input =
      if g1.hash_count < 2 then .error .too_few_symbols else .error .null_deref := by
  obtain ⟨t1, r1⟩ := encode_pass1_frame stack heap g g1 input h
  unfold encode
  simp only [h, bind, Except.bind]
  by_cases h2 : g1.hash_count < 2
  · simp [h2, make_Huffman_tree, bind, Except.bind, throw, throwThe, MonadExceptOf.throw]
  · rw [make_Huffman_tree_root_NULL g1 (by omega) (r1.trans hroot) t1]
    simp [h2]

theorem encode_fails (stack : Nat → Nat) (heap : Nat → Nat → Nat) (g : Globals)
    (input : List Nat) (hroot : g.Huffman_root = node.NULL) :
    ∃ f, encode stack heap g input = .error f := by
  cases h : encode_pass1 stack heap g input with
  | error f => exact ⟨f, by simp [encode, h, bind, Except.bind]⟩
  | ok g1 =>
    rw [encode_of_pass1 stack heap g g1 input hroot h]
    by_cases h2 : g1.hash_count < 2
    · exact ⟨.too_few_symbols, by simp [h2]⟩
    · exact ⟨.null_deref, by simp [h2]⟩

theorem decode_loop_fails (fp_in : List Nat) : ∀ (n : node) (fp_out : List Nat),
    ∃ f, decode_loop fp_in n fp_out = .error f := by
  induction fp_in with
  | nil => intro n fp_out; exact ⟨.unexpected_eof, rfl⟩
  | cons c cs ih =>
    intro n fp_out
    cases hb : decode_bits 8 c n with
    | error f => exact ⟨f, by simp [decode_loop, hb, bind, Except.bind]⟩
    | ok n1 =>
      obtain ⟨f, hf⟩ := ih n1 fp_out
      exact ⟨f, by simp [decode_loop, hb, bind, Except.bind, hf]⟩

theorem decode_fails (fresh : Nat → Nat) (fp_in : List Nat) :
    ∃ f, decode fresh fp_in = .error f := by
  unfold decode
  cases h1 : decode_Huffman_node fresh fp_in with
  | error f => exact ⟨f, by simp [bind, Except.bind]⟩
  | ok r =>
    obtain ⟨root, rest⟩ := r
    cases h2 : assign_codes root with
    | error f => exact ⟨f, by simp [h2, bind, Except.bind]⟩
    | ok root1 =>
      obtain ⟨f, hf⟩ := decode_loop_fails rest root1 []
      exact ⟨f, by simp [h2, bind, Except.bind, hf]⟩

theorem encode_Huffman_node_mk (d : Data) (l r : node) (fp_out : List Nat) :
    encode_Huffman_node (.mk d l r) fp_out = .ok fp_out := by
  cases l <;> rfl

/-- C1 (the code misses it): `encode` never produces a container.  On
"aaa bbb", memory zero-filled, pass 1 counts four symbols and
`make_Huffman_tree`, which builds no tree, then writes through the NULL
`Huffman_root`; for every input and every content of memory `encode` ends in a
failure; and `decode`, whose loop has no exit, ends in a failure on every
file. -/
theorem round_trip_never_completes :
    encode zeros (fun _ => zeros) Globals.start [97, 97, 97, 32, 98, 98, 98]
      = .error .null_deref ∧
    (∀ stack heap input, ∃ f, encode stack heap Globals.start input = .error f) ∧
    (∀ fresh fp_in, ∃ f, decode fresh fp_in = .error f) := by
  refine ⟨?_, fun stack heap input => encode_fails stack heap _ input rfl, decode_fails⟩
  have h : ∃ g, encode_pass1 zeros (fun _ => zeros) Globals.start
      [97, 97, 97, 32, 98, 98, 98] = .ok g ∧ g.hash_count = 4 := ⟨_, rfl, rfl⟩
  obtain ⟨g, hg, hc⟩ := h
  rw [encode_of_pass1 _ _ _ g _ rfl hg, hc]
  rfl

/-- C4 (the code misses it): on a freshly initialised table, counting the
symbol with the two bytes 0,1 and then the symbol with the two bytes 0,2 leaves
one node in the table, with count 2: `hash_function` and `strcmp` stop at the
first zero byte, so the two symbols are taken for the same one. -/
theorem count_symbol_merges_symbols :
    ∃ g, (count_symbol zeros (array_of [0, 1]) 2 (init_hash_table 100000 Globals.start) >>=
        count_symbol zeros (array_of [0, 2]) 2) = .ok g ∧
      g.hash_count = 1 ∧ table_entries g [75286] = [([0, 1], 2, 2)] ∧
      ∀ i, i ≠ 75286 → g.hash_table i = [] := by
  refine ⟨_, rfl, rfl, rfl, ?_⟩
  intro i hi
  simp [Function.update, hi, init_hash_table, Globals.start]

/-- C5 (the code misses it): for the table of "aaa bbb" (four symbols, the
end-of-file mark included) `make_Huffman_tree` fills the min-heap and then,
having no statement that builds a tree, writes through `Huffman_root`, which
is still NULL. -/
theorem make_Huffman_tree_builds_no_tree :
    ∃ g, encode_pass1 zeros (fun _ => zeros) Globals.start [97, 97, 97, 32, 98, 98, 98]
        = .ok g ∧
      g.hash_count = 4 ∧
      table_entries g [75286, 12150, 28278, 38582] =
        [([], 0, 1), ([97, 97, 97], 3, 1), ([32], 1, 1), ([98, 98, 98], 3, 1)] ∧
      g.Huffman_root = node.NULL ∧
      make_Huffman_tree g = .error .null_deref := by
  have h : ∃ g, encode_pass1 zeros (fun _ => zeros) Globals.start
      [97, 97, 97, 32, 98, 98, 98] = .ok g ∧ g.hash_count = 4 ∧
      table_entries g [75286, 12150, 28278, 38582] =
        [([], 0, 1), ([97, 97, 97], 3, 1), ([32], 1, 1), ([98, 98, 98], 3, 1)] :=
    ⟨_, rfl, rfl, rfl⟩
  obtain ⟨g, hg, hc, he⟩ := h
  obtain ⟨t1, r1⟩ := encode_pass1_frame _ _ _ _ _ hg
  exact ⟨g, hg, hc, he, r1, make_Huffman_tree_root_NULL g (by omega) r1 t1⟩

/-- C6 (the code misses it): on the input of one zero byte, memory
zero-filled, the symbol of the input is taken for the end-of-file mark (both
are empty as C strings), pass 1 leaves one node with count 2, and `encode`
stops with "We need at least two different symbols" on a non-empty input. -/
theorem encode_zero_byte_too_few_symbols :
    (∃ g, encode_pass1 zeros (fun _ => zeros) Globals.start [0] = .ok g ∧
      g.hash_count = 1 ∧ table_entries g [75286] = [([], 0, 2)]) ∧
    tokens zeros [0] = [[0]] ∧
    encode zeros (fun _ => zeros) Globals.start [0] = .error .too_few_symbols ∧
    encode zeros (fun _ => zeros) Globals.start [] = .error .too_few_symbols :=
  ⟨⟨_, rfl, rfl, rfl⟩, rfl, rfl, rfl⟩

/-- C10 (the code misses it): `encode_Huffman_node` writes no byte, for the
tree with the leaves "a" and "" as for every tree, so `decode_Huffman_node`
applied to what it wrote meets the end of the file at once. -/
theorem tree_codec_writes_nothing :
    encode_Huffman_node (branch (leaf [97]) (leaf [])) [] = .ok [] ∧
    (∀ fresh, (encode_Huffman_node (branch (leaf [97]) (leaf [])) [] >>=
        decode_Huffman_node fresh) = .error .unexpected_eof) ∧
    (∀ d l r fp_out, encode_Huffman_node (.mk d l r) fp_out = .ok fp_out) :=
  ⟨rfl, fun _ => rfl, encode_Huffman_node_mk⟩

/-! ## `decode_Huffman_node` on the serialized tree of the specification -/

theorem read_symbol_append (s : List Nat) : ∀ (i : Nat) (symbol : Nat → Nat) (rest : List Nat),
    read_symbol s.length i symbol (s ++ rest) = .ok (store symbol i s, rest) := by
  induction s with
  | nil => intro i symbol rest; rfl
  | cons c cs ih => intro i symbol rest; exact ih (i + 1) _ rest

theorem store_below (s : List Nat) : ∀ (i : Nat) (symbol : Nat → Nat) (k : Nat), k < i →
    store symbol i s k = symbol k := by
  induction s with
  | nil => intro i symbol k _; rfl
  | cons c cs ih =>
    intro i symbol k hk
    rw [store, ih (i + 1) _ k (by omega), Function.update_noteq (by omega)]

theorem store_get (s : List Nat) : ∀ (i : Nat) (symbol : Nat → Nat) (j : Nat) (h : j < s.length),
    store symbol i s (i + j) = s[j] := by
  induction s with
  | nil => intro i symbol j h; simp at h
  | cons c cs ih =>
    intro i symbol j h
    cases j with
    | zero =>
      show store (Function.update symbol i c) (i + 1) cs i = c
      rw [store_below cs (i + 1) _ i (by omega), Function.update_same]
    | succ j =>
      have := ih (i + 1) (Function.update symbol i c) j (by simpa using h)
      rw [store, show i + (j + 1) = i + 1 + j by omega, this]
      rfl

theorem bytes_store (fresh : Nat → Nat) (s : List Nat) :
    (List.range s.length).map (store fresh 0 s) = s := by
  apply List.ext_getElem
  · simp
  · intro j h1 h2
    have := store_get s 0 fresh j h2
    simp only [Nat.zero_add] at this
    simp [this]

theorem tree_node_of (fresh : Nat → Nat) (t : Tree) : (node_of fresh t).tree = some t := by
  induction t with
  | leaf s => simp [node_of, node.tree, bytes_store]
  | internal l r ihl ihr =>
    cases hl : node_of fresh l with
    | NULL => rw [hl] at ihl; simp [node.tree] at ihl
    | mk dl ll lr =>
      rw [hl] at ihl
      cases hr : node_of fresh r with
      | NULL => rw [hr] at ihr; simp [node.tree] at ihr
      | mk dr rl rr =>
        rw [hr] at ihr
        simp only [node_of, hl, hr, node.tree, ihl, ihr]

theorem ser_length_pos (t : Tree) : 0 < (ser t).length := by
  cases t <;> simp [ser]

theorem decode_depth_internal (fresh : Nat → Nat) (k : Nat) (fp fp1 fp2 : List Nat) (l r : node)
    (hl : decode_Huffman_node_depth fresh k fp = .ok (l, fp1))
    (hr : decode_Huffman_node_depth fresh k fp1 = .ok (r, fp2)) :
    decode_Huffman_node_depth fresh (k + 1) (255 :: fp) =
      .ok (.mk ⟨fresh, 0, 0, 0, -1⟩ l r, fp2) := by
  simp only [decode_Huffman_node_depth, if_true, hl, hr, bind, Except.bind, pure, Except.pure]

theorem decode_depth_left_error (fresh : Nat → Nat) (k : Nat) (fp : List Nat) (e : Fault)
    (hl : decode_Huffman_node_depth fresh k fp = .error e) :
    decode_Huffman_node_depth fresh (k + 1) (255 :: fp) = .error e := by
  simp only [decode_Huffman_node_depth, if_true, hl, bind, Except.bind]

theorem decode_depth_right_error (fresh : Nat → Nat) (k : Nat) (fp fp1 : List Nat) (l : node)
    (e : Fault) (hl : decode_Huffman_node_depth fresh k fp = .ok (l, fp1))
    (hr : decode_Huffman_node_depth fresh k fp1 = .error e) :
    decode_Huffman_node_depth fresh (k + 1) (255 :: fp) = .error e := by
  simp only [decode_Huffman_node_depth, if_true, hl, hr, bind, Except.bind]

theorem decode_depth_leaf (fresh : Nat → Nat) (k c : Nat) (fp fp1 : List Nat)
    (symbol : Nat → Nat) (hc : c ≤ 16)
    (hs : read_symbol c 0 fresh fp = .ok (symbol, fp1)) :
    decode_Huffman_node_depth fresh (k + 1) (c :: fp) =
      .ok (.mk ⟨symbol, c, 0, 0, -1⟩ .NULL .NULL, fp1) := by
  have h255 : c ≠ 255 := by omega
  have hle : ¬ c > MAX_SYMBOL_SIZE := by simp only [MAX_SYMBOL_SIZE]; omega
  simp only [decode_Huffman_node_depth, h255, if_false, hle, hs, bind, Except.bind, pure,
    Except.pure]

theorem decode_depth_leaf_error (fresh : Nat → Nat) (k c : Nat) (fp : List Nat) (e : Fault)
    (hc : c ≤ 16) (hs : read_symbol c 0 fresh fp = .error e) :
    decode_Huffman_node_depth fresh (k + 1) (c :: fp) = .error e := by
  have h255 : c ≠ 255 := by omega
  have hle : ¬ c > MAX_SYMBOL_SIZE := by simp only [MAX_SYMBOL_SIZE]; omega
  simp only [decode_Huffman_node_depth, h255, if_false, hle, hs, bind, Except.bind]

theorem decode_depth_too_large (fresh : Nat → Nat) (k c : Nat) (fp : List Nat)
    (hc : 16 < c) (h255 : c ≠ 255) :
    decode_Huffman_node_depth fresh (k + 1) (c :: fp) = .error .word_too_large := by
  have hle : c > MAX_SYMBOL_SIZE := by simp only [MAX_SYMBOL_SIZE]; omega
  simp only [decode_Huffman_node_depth, h255, if_false, hle, if_true]

theorem decode_depth_ser (fresh : Nat → Nat) (t : Tree) : ∀ (k : Nat) (rest : List Nat),
    t.symbols_fit = true → (ser t).length ≤ k →
    decode_Huffman_node_depth fresh k (ser t ++ rest) = .ok (node_of fresh t, rest) := by
  induction t with
  | leaf s =>
    intro k rest hfit hk
    cases k with
    | zero => simp [ser] at hk
    | succ k =>
      have h16 : s.length ≤ 16 := by simpa [Tree.symbols_fit] using hfit
      exact decode_depth_leaf fresh k s.length (s ++ rest) rest _ h16
        (read_symbol_append s 0 fresh rest)
  | internal l r ihl ihr =>
    intro k rest hfit hk
    cases k with
    | zero => simp [ser] at hk
    | succ k =>
      simp only [Tree.symbols_fit, Bool.and_eq_true] at hfit
      simp only [ser, List.length_cons, List.length_append] at hk
      have h1 := ihl k (ser r ++ rest) hfit.1 (by omega)
      have h2 := ihr k rest hfit.2 (by omega)
      rw [← List.append_assoc] at h1
      exact decode_depth_internal fresh k _ _ _ _ _ h1 h2

/-- C11: for every tree t of the specification whose leaf symbols have 0 to 16
bytes and every byte sequence rest, `decode_Huffman_node` reading ser(t)
followed by rest returns; the tree it returns has the shape and the leaf
symbols of t, and the bytes left unread are exactly rest. -/
theorem decode_Huffman_node_ser (fresh : Nat → Nat) (t : Tree) (rest : List Nat)
    (hfit : t.symbols_fit = true) :
    ∃ n, decode_Huffman_node fresh (ser t ++ rest) = .ok (n, rest) ∧ n.tree = some t :=
  ⟨node_of fresh t,
    decode_depth_ser fresh t _ rest hfit (by simp only [List.length_append]; omega),
    tree_node_of fresh t⟩

/-- The tree with the leaves "a" and "", serialized as FF 01 61 00, followed by
the byte 40: the tree is read back and the byte 40 is left. -/
theorem decode_Huffman_node_ser_witness :
    ∃ n, decode_Huffman_node zeros
        (ser (.internal (.leaf [97]) (.leaf [])) ++ [0x40]) = .ok (n, [0x40]) ∧
      n.tree = some (.internal (.leaf [97]) (.leaf [])) :=
  decode_Huffman_node_ser zeros (.internal (.leaf [97]) (.leaf [])) [0x40] rfl

theorem decode_depth_place (fresh : Nat → Nat) (c : Nat) (rest : List Nat) (hc : 16 < c)
    (h255 : c ≠ 255) (pl : Place) : ∀ k : Nat, pl.symbols_fit = true → pl.before.length < k →
    decode_Huffman_node_depth fresh k (pl.before ++ c :: rest) = .error .word_too_large := by
  induction pl with
  | root =>
    intro k _ hk
    cases k with
    | zero => omega
    | succ k => exact decode_depth_too_large fresh k c rest hc h255
  | left pl ih =>
    intro k hfit hk
    cases k with
    | zero => omega
    | succ k =>
      simp only [Place.before, List.length_cons] at hk
      exact decode_depth_left_error fresh k _ _ (ih k hfit (by omega))
  | right t pl ih =>
    intro k hfit hk
    cases k with
    | zero => omega
    | succ k =>
      simp only [Place.symbols_fit, Bool.and_eq_true] at hfit
      simp only [Place.before, List.length_cons, List.length_append] at hk
      have h1 := decode_depth_ser fresh t k (pl.before ++ c :: rest) hfit.1 (by omega)
      have h2 := ih k hfit.2 (by omega)
      rw [← List.append_assoc] at h1
      exact decode_depth_right_error fresh k _ _ _ _ h1 h2

theorem decode_depth_sizes_fit (fresh : Nat → Nat) (k : Nat) : ∀ (fp rest : List Nat) (n : node),
    decode_Huffman_node_depth fresh k fp = .ok (n, rest) → n.sizes_fit = true := by
  induction k with
  | zero => intro fp rest n h; simp [decode_Huffman_node_depth] at h
  | succ k ih =>
    intro fp rest n h
    cases fp with
    | nil => simp [decode_Huffman_node_depth] at h
    | cons c fp =>
      by_cases h255 : c = 255
      · subst h255
        cases h1 : decode_Huffman_node_depth fresh k fp with
        | error e => rw [decode_depth_left_error fresh k fp e h1] at h; cases h
        | ok r1 =>
          obtain ⟨l, fp1⟩ := r1
          cases h2 : decode_Huffman_node_depth fresh k fp1 with
          | error e => rw [decode_depth_right_error fresh k fp fp1 l e h1 h2] at h; cases h
          | ok r2 =>
            obtain ⟨r, fp2⟩ := r2
            rw [decode_depth_internal fresh k fp fp1 fp2 l r h1 h2] at h
            simp only [Except.ok.injEq, Prod.mk.injEq] at h
            rw [← h.1]
            simp [node.sizes_fit, ih _ _ _ h1, ih _ _ _ h2]
      · by_cases hc : 16 < c
        · rw [decode_depth_too_large fresh k c fp hc h255] at h; cases h
        · have hc16 : c ≤ 16 := by omega
          cases h1 : read_symbol c 0 fresh fp with
          | error e => rw [decode_depth_leaf_error fresh k c fp e hc16 h1] at h; cases h
          | ok r1 =>
            obtain ⟨symbol, fp1⟩ := r1
            rw [decode_depth_leaf fresh k c fp fp1 symbol hc16 h1] at h
            simp only [Except.ok.injEq, Prod.mk.injEq] at h
            rw [← h.1]
            simp [node.sizes_fit, hc16]

/-- C12: `decode_Huffman_node` stops with "Word too large" whenever the byte
read where a node begins (at the root, or deeper, after the subtrees read
before it) is greater than 16 and is not 0xFF, whatever follows that byte; on
every return each node of the tree has a `symbol_size` of at most 16; a leaf
length byte of 20 is refused. -/
theorem decode_Huffman_node_word_too_large (fresh : Nat → Nat) :
    (∀ (pl : Place) (c : Nat) (rest : List Nat), pl.symbols_fit = true → 16 < c → c ≠ 255 →
      decode_Huffman_node fresh (pl.before ++ c :: rest) = .error .word_too_large) ∧
    (∀ (fp rest : List Nat) (n : node),
      decode_Huffman_node fresh fp = .ok (n, rest) → n.sizes_fit = true) ∧
    decode_Huffman_node fresh [20] = .error .word_too_large :=
  ⟨fun pl c rest hfit hc h255 =>
      decode_depth_place fresh c rest hc h255 pl _ hfit
        (by simp only [List.length_append, List.length_cons]; omega),
    fun fp rest n h => decode_depth_sizes_fit fresh _ fp rest n h,
    decode_depth_too_large fresh _ 20 [] (by norm_num) (by norm_num)⟩

/-- After the marker FF and the leaf "a" (01 61), where the right child begins,
a length byte of 20 is refused. -/
theorem decode_Huffman_node_word_too_large_witness :
    decode_Huffman_node zeros ((Place.right (.leaf [97]) .root).before ++ 20 :: [1, 2, 3])
      = .error .word_too_large :=
  (decode_Huffman_node_word_too_large zeros).1 (.right (.leaf [97]) .root) 20 [1, 2, 3] rfl
    (by norm_num) (by norm_num)

theorem read_symbol_short (s : List Nat) : ∀ (q : List Nat) (i : Nat) (symbol : Nat → Nat),
    q <+: s → q ≠ s → read_symbol s.length i symbol q = .error .unexpected_eof := by
  induction s with
  | nil =>
    intro q i symbol hq hne
    exact absurd (List.prefix_nil.mp hq) hne
  | cons c cs ih =>
    intro q i symbol hq hne
    cases q with
    | nil => rfl
    | cons c1 q =>
      rw [List.cons_prefix_cons] at hq
      have hne1 : q ≠ cs := by
        intro h
        apply hne
        rw [hq.1, h]
      exact ih q (i + 1) _ hq.2 hne1

theorem decode_depth_short (fresh : Nat → Nat) (t : Tree) : ∀ (k : Nat) (p : List Nat),
    t.symbols_fit = true → p <+: ser t → p ≠ ser t → p.length < k →
    decode_Huffman_node_depth fresh k p = .error .unexpected_eof := by
  induction t with
  | leaf s =>
    intro k p hfit hp hne hk
    cases k with
    | zero => omega
    | succ k =>
      cases p with
      | nil => rfl
      | cons c q =>
        have h16 : s.length ≤ 16 := by simpa [Tree.symbols_fit] using hfit
        simp only [ser, List.cons_prefix_cons] at hp
        have hne1 : q ≠ s := by
          intro h
          apply hne
          rw [ser, hp.1, h]
        rw [hp.1]
        exact decode_depth_leaf_error fresh k s.length q _ h16
          (read_symbol_short s q 0 fresh hp.2 hne1)
  | internal l r ihl ihr =>
    intro k p hfit hp hne hk
    cases k with
    | zero => omega
    | succ k =>
      cases p with
      | nil => rfl
      | cons c q =>
        simp only [Tree.symbols_fit, Bool.and_eq_true] at hfit
        simp only [ser, List.cons_prefix_cons] at hp
        simp only [List.length_cons] at hk
        have hne1 : q ≠ ser l ++ ser r := by
          intro h
          apply hne
          rw [ser, hp.1, h]
        rw [hp.1]
        rcases List.prefix_or_prefix_of_prefix hp.2 (List.prefix_append (ser l) (ser r)) with
          h | h
        · by_cases hql : q = ser l
          · have h1 := decode_depth_ser fresh l k [] hfit.1
              (by rw [← hql]; omega)
            rw [List.append_nil, ← hql] at h1
            have h2 := ihr k [] hfit.2 (List.nil_prefix) (by
              intro h0
              have := ser_length_pos r
              rw [← h0] at this
              simp at this) (by simp; omega)
            exact decode_depth_right_error fresh k _ _ _ _ h1 h2
          · exact decode_depth_left_error fresh k _ _ (ihl k q hfit.1 h hql (by omega))
        · obtain ⟨q1, hq1⟩ := h
          subst hq1
          have hp2 : q1 <+: ser r := (List.prefix_append_right_inj (ser l)).mp hp.2
          have hne2 : q1 ≠ ser r := by
            intro h0
            apply hne1
            rw [h0]
          simp only [List.length_append] at hk
          have h1 := decode_depth_ser fresh l k q1 hfit.1 (by omega)
          have h2 := ihr k q1 hfit.2 hp2 hne2 (by omega)
          exact decode_depth_right_error fresh k _ _ _ _ h1 h2

/-- C13: for every serialized tree of the specification (leaf lengths 0 to 16)
and every strict initial segment p of it, `decode_Huffman_node` reading p and
then the end of the file stops with "Unexpected end of file"; it returns no
tree. -/
theorem decode_Huffman_node_truncated (fresh : Nat → Nat) (t : Tree) (p : List Nat)
    (hfit : t.symbols_fit = true) (hp : p <+: ser t) (hne : p ≠ ser t) :
    decode_Huffman_node fresh p = .error .unexpected_eof :=
  decode_depth_short fresh t _ p hfit hp hne (Nat.lt_succ_self _)

/-- The serialized tree FF 01 61 00 cut after the byte 01: the symbol byte of
the left leaf is missing. -/
theorem decode_Huffman_node_truncated_witness :
    decode_Huffman_node zeros [255, 1] = .error .unexpected_eof :=
  decode_Huffman_node_truncated zeros (.internal (.leaf [97]) (.leaf [])) [255, 1] rfl
    ⟨[97, 0], rfl⟩ (by decide)

/-! ## Pass 2, the decoding loop and `min_heap_get` on concrete inputs -/

/-- C16 (the code misses it): on the file "a bcd", memory zero-filled, pass 1
counts "", "a", " " and "bcd".  In pass 2 the array `symbol` still holds
"bcd", so the first call, for the symbol "a", hashes and compares the C string
"acd": no node is found and `write_code_word` stops with
"find_hash_table_node() unexpected failure"; and the last call, for the
end-of-file mark, finds the node of "bcd". -/
theorem pass2_lookup_misses :
    ∃ g, encode_pass1 zeros (fun _ => zeros) Globals.start [97, 32, 98, 99, 100] = .ok g ∧
      g.hash_count = 4 ∧
      tokens (scan_pass zeros [97, 32, 98, 99, 100]).2 [97, 32, 98, 99, 100]
        = [[97], [32], [98, 99, 100]] ∧
      (∃ e, ((scan_pass (scan_pass zeros [97, 32, 98, 99, 100]).2
          [97, 32, 98, 99, 100]).1).head? = some e ∧
        e.bytes = [97] ∧ found_symbol e.symbol e.symbol_size g = .ok none ∧
        ∀ fp_out, write_code_word e.symbol e.symbol_size g fp_out = .error .find_failure) ∧
      found_symbol (scan_pass (scan_pass zeros [97, 32, 98, 99, 100]).2
          [97, 32, 98, 99, 100]).2 0 g = .ok (some ([98, 99, 100], 3)) :=
  ⟨_, rfl, rfl, rfl, ⟨_, rfl, rfl, rfl, fun _ => rfl⟩, rfl⟩

/-- C17 (the code misses it): the file FF 01 61 00 40 holds the tree with the
leaves "a" (left) and "" (right), then the bits 0 (the leaf "a") and 1 (the
end-of-file leaf) and padding.  The loop of `decode` does nothing at the leaf
"a": the second bit is followed from the leaf to its NULL child and the third
bit reads through NULL.  `decode` returns on no file at all. -/
theorem decode_loop_ignores_leaves :
    decode zeros [255, 1, 97, 0, 0x40] = .error .null_deref ∧
    (∀ fresh fp_in, ∃ f, decode fresh fp_in = .error f) :=
  ⟨rfl, decode_fails⟩

/-- C18 (the code misses it): the file FF 01 61 00 00 holds the tree with the
leaves "a" and "", then eight bits 0 (eight times "a") and the end of the
file before any end-of-file leaf.  `decode` does not stop with "Unexpected end
of file": after the first bit the walk is at the leaf "a", the second bit
takes its NULL child, the third reads through NULL. -/
theorem decode_walks_through_NULL :
    decode zeros [255, 1, 97, 0, 0x00] = .error .null_deref ∧
    (∃ n, decode_Huffman_node zeros [255, 1, 97, 0, 0x00] = .ok (n, [0x00]) ∧
      n.tree = some (.internal (.leaf [97]) (.leaf [])) ∧
      decode_bits 2 0x00 n = .ok .NULL) :=
  ⟨rfl, _, rfl, rfl, rfl⟩

/-- C19 (the code misses it): three nodes with the counts 1, 2, 3 are put in
an empty heap in this order.  With the globals as they are when the program
starts, the calls of `min_heap_get` return the counts 1, 3, 2: `reorder_heap`
tests its children against `min_heap_array_size`, which is 0, and moves
nothing.  After `create_min_heap(3)` the first `min_heap_get` reads slot 2 of
an array of 2 slots. -/
theorem min_heap_get_out_of_order :
    (∃ g3 r1 g2 r2 g1 r3 g0,
      (min_heap_put (counted 1) Globals.start >>= min_heap_put (counted 2) >>=
        min_heap_put (counted 3)) = .ok g3 ∧
      g3.min_heap_array.map node.count_of = [some 1, some 2, some 3] ∧
      min_heap_get g3 = .ok (r1, g2) ∧ r1.count_of = some 1 ∧
      g2.min_heap_array.map node.count_of = [some 3, some 2] ∧
      min_heap_get g2 = .ok (r2, g1) ∧ r2.count_of = some 3 ∧
      min_heap_get g1 = .ok (r3, g0) ∧ r3.count_of = some 2 ∧ g0.min_heap_size = 0) ∧
    (min_heap_put (counted 1) (create_min_heap 3 Globals.start) >>= min_heap_put (counted 2) >>=
      min_heap_put (counted 3) >>= min_heap_get) = .error .out_of_bounds :=
  ⟨⟨_, _, _, _, _, _, _, rfl, rfl, rfl, rfl, rfl, rfl, rfl, rfl, rfl, rfl⟩, rfl⟩

/-! ## `write_code_word` -/

theorem find_no_create (fresh symbol : Nat → Nat) (symbol_size : Nat) (g g1 : Globals)
    (idx : Nat) (pos : Option Nat)
    (h : find_hash_table_node fresh symbol symbol_size false g = .ok (idx, pos, g1)) :
    g1 = g := by
  unfold find_hash_table_node at h
  cases hh : hash_function g.hash_table_size symbol symbol_size with
  | error e => simp [hh, bind, Except.bind] at h
  | ok i =>
    cases hc : chain_find symbol (g.hash_table i) with
    | error e => simp [hh, hc, bind, Except.bind] at h
    | ok found =>
      cases found with
      | some k =>
        simp only [hh, hc, bind, Except.bind, pure, Except.pure, Except.ok.injEq,
          Prod.mk.injEq] at h
        exact h.2.2.symm
      | none =>
        simp only [hh, hc, bind, Except.bind, pure, Except.pure, Except.ok.injEq,
          Prod.mk.injEq, Bool.false_eq_true, if_false] at h
        exact h.2.2.symm

theorem write_code_word_eq (symbol : Nat → Nat) (symbol_size : Nat) (g : Globals)
    (fp_out : List Nat) :
    write_code_word symbol symbol_size g fp_out =
      (found_data symbol symbol_size g >>= fun d =>
        push_code d symbol_size g.partial_word g.partial_word_bits fp_out >>= fun r =>
          pure ({ g with partial_word := r.1, partial_word_bits := r.2.1 }, r.2.2)) := by
  unfold write_code_word found_data
  cases hf : find_hash_table_node (fun _ => 0) symbol symbol_size false g with
  | error e => simp [bind, Except.bind]
  | ok r =>
    obtain ⟨idx, pos, g1⟩ := r
    have hg := find_no_create _ _ _ _ _ _ _ hf
    subst hg
    cases pos with
    | none => simp [bind, Except.bind, throw, throwThe, MonadExceptOf.throw]
    | some k =>
      cases hs : slot (g1.hash_table idx) k with
      | error e => simp [hs, bind, Except.bind]
      | ok n =>
        cases hd : n.data with
        | error e => simp [hs, hd, bind, Except.bind]
        | ok d =>
          simp only [hs, hd, bind, Except.bind, push_code, pure, Except.pure]
          by_cases h2 : g1.partial_word_bits + d.code_bits > 64
          · simp [h2, throw, throwThe, MonadExceptOf.throw]
          · simp only [h2, if_false]
            split <;> rfl

theorem code_string_append (x y z a b : Nat)
    (hlow : ∀ j, j < b → x.testBit j = z.testBit j)
    (hhigh : ∀ j, j < a → x.testBit (b + j) = y.testBit j) :
    code_string x (a + b) = code_string y a ++ code_string z b := by
  unfold code_string
  rw [List.range_add, List.map_append, List.map_map]
  congr 1
  · apply List.map_congr_left
    intro i hi
    have hi := List.mem_range.mp hi
    rw [show a + b - 1 - i = b + (a - 1 - i) by omega]
    exact hhigh _ (by omega)
  · apply List.map_congr_left
    intro i hi
    have hi := List.mem_range.mp hi
    simp only [Function.comp]
    rw [show a + b - 1 - (a + i) = b - 1 - i by omega]
    exact hlow _ (by omega)

theorem code_string_zero (n : Nat) : code_string 0 n = List.replicate n false := by
  unfold code_string
  apply List.ext_getElem
  · simp
  · intro i h1 h2
    simp

theorem code_string_push (pw code bits cb : Nat) (h64 : bits + cb ≤ 64) (hc : code < 2 ^ cb) :
    code_string (((pw <<< cb) % 2 ^ 64) ||| code) (bits + cb) =
      code_string pw bits ++ code_string code cb := by
  apply code_string_append
  · intro j hj
    have : ¬ cb ≤ j := by omega
    rw [Nat.testBit_or, Nat.testBit_mod_two_pow, Nat.testBit_shiftLeft]
    simp [this]
  · intro j hj
    have h1 : cb + j < 64 := by omega
    have h2 : code.testBit (cb + j) = false :=
      Nat.testBit_lt_two_pow (Nat.lt_of_lt_of_le hc (Nat.pow_le_pow_right (by norm_num)
        (Nat.le_add_right _ _)))
    rw [Nat.testBit_or, Nat.testBit_mod_two_pow, Nat.testBit_shiftLeft, h2]
    simp [h1]

theorem code_string_top_byte (pw bits : Nat) (h : 8 ≤ bits) :
    code_string pw bits =
      code_string ((pw >>> (bits - 8)) % 256) 8 ++ code_string pw (bits - 8) := by
  have := code_string_append pw ((pw >>> (bits - 8)) % 256) pw 8 (bits - 8)
    (fun _ _ => rfl)
    (by
      intro j hj
      rw [show (256 : Nat) = 2 ^ 8 by norm_num, Nat.testBit_mod_two_pow,
        Nat.testBit_shiftRight]
      simp [hj])
  rw [show 8 + (bits - 8) = bits by omega] at this
  exact this

theorem code_string_flush (pw bits : Nat) (h : bits ≤ 8) :
    code_string (((pw <<< (8 - bits)) % 2 ^ 64) % 256) 8 =
      code_string pw bits ++ List.replicate (8 - bits) false := by
  rw [← code_string_zero]
  have := code_string_append (((pw <<< (8 - bits)) % 2 ^ 64) % 256) pw 0 bits (8 - bits)
    (by
      intro j hj
      have : ¬ 8 - bits ≤ j := by omega
      rw [show (256 : Nat) = 2 ^ 8 by norm_num, Nat.testBit_mod_two_pow,
        Nat.testBit_mod_two_pow, Nat.testBit_shiftLeft]
      simp [this])
    (by
      intro j hj
      have h1 : 8 - bits + j < 8 := by omega
      have h2 : 8 - bits + j < 64 := by omega
      rw [show (256 : Nat) = 2 ^ 8 by norm_num, Nat.testBit_mod_two_pow,
        Nat.testBit_mod_two_pow, Nat.testBit_shiftLeft]
      simp [h1, h2])
  rw [show bits + (8 - bits) = 8 by omega] at this
  exact this

theorem bits_of_bytes_append (a b : List Nat) :
    bits_of_bytes (a ++ b) = bits_of_bytes a ++ bits_of_bytes b := by
  simp [bits_of_bytes]

theorem bits_of_bytes_singleton (b : Nat) : bits_of_bytes [b] = code_string b 8 := by
  simp [bits_of_bytes]

theorem shift_left_eq (x c : Nat) (h : c ≤ 63) :
    shift_left x (c : Int) = (x <<< c) % 2 ^ 64 := by
  unfold shift_left
  have : ((c : Int) % 64).toNat = c := by omega
  rw [this]

theorem put_bytes_small (pw k : Nat) (bits : Int) (out : List Nat) (h : bits < 8) :
    put_bytes pw k bits out = (bits, out) := by
  cases k with
  | zero => rfl
  | succ k =>
    have : ¬ bits ≥ 8 := by omega
    simp [put_bytes, this]

theorem put_bytes_spec (pw : Nat) : ∀ (k bits : Nat) (out : List Nat), bits ≤ k →
    (put_bytes pw k (bits : Int) out).1 = ((bits % 8 : Nat) : Int) ∧
    bits_of_bytes (put_bytes pw k (bits : Int) out).2 ++ code_string pw (bits % 8) =
      bits_of_bytes out ++ code_string pw bits := by
  intro k
  induction k with
  | zero =>
    intro bits out h
    have : bits = 0 := by omega
    subst this
    exact ⟨rfl, rfl⟩
  | succ k ih =>
    intro bits out h
    by_cases h8 : bits ≥ 8
    · obtain ⟨i1, i2⟩ := ih (bits - 8) (out ++ [(pw >>> (bits - 8)) % 256]) (by omega)
      have hm : (bits - 8) % 8 = bits % 8 := by omega
      have h8i : (bits : Int) ≥ 8 := by omega
      have hc : (bits : Int) - 8 = ((bits - 8 : Nat) : Int) := by omega
      have ht : ((bits : Int) - 8).toNat = bits - 8 := by omega
      simp only [put_bytes, h8i, if_true, ht]
      rw [hc]
      rw [hm] at i1 i2
      refine ⟨i1, ?_⟩
      rw [i2, bits_of_bytes_append, bits_of_bytes_singleton, List.append_assoc,
        ← code_string_top_byte pw bits h8]
    · have hm : bits % 8 = bits := Nat.mod_eq_of_lt (by omega)
      have h8i : ¬ (bits : Int) ≥ 8 := by omega
      simp only [put_bytes, h8i, if_false, hm]
      exact ⟨trivial, trivial⟩

theorem put_bytes_bits (pw : Nat) : ∀ (k : Nat) (bits : Int) (out : List Nat), bits ≤ k →
    (put_bytes pw k bits out).1 ≤ 7 := by
  intro k
  induction k with
  | zero =>
    intro bits out h
    simp only [put_bytes]
    omega
  | succ k ih =>
    intro bits out h
    by_cases h8 : bits ≥ 8
    · simp only [put_bytes, h8, if_true]
      exact ih _ _ (by push_cast at h; omega)
    · simp only [put_bytes, h8, if_false]
      omega

theorem push_code_bits (d : Data) (size pw : Nat) (bits : Int) (out : List Nat) (pw1 : Nat)
    (bits1 : Int) (out1 : List Nat) (h : push_code d size pw bits out = .ok (pw1, bits1, out1)) :
    bits1 ≤ 7 ∧ ¬ bits + d.code_bits > 64 := by
  unfold push_code at h
  by_cases h2 : bits + d.code_bits > 64
  · simp [h2, bind, Except.bind, throw, throwThe, MonadExceptOf.throw, pure,
      Except.pure] at h
  refine ⟨?_, h2⟩
  have hle := put_bytes_bits (shift_left pw d.code_bits ||| d.code) (bits + d.code_bits).toNat
    (bits + d.code_bits) out (Int.self_le_toNat _)
  cases hp : put_bytes (shift_left pw d.code_bits ||| d.code) (bits + d.code_bits).toNat
    (bits + d.code_bits) out with
  | mk b1 o1 =>
    rw [hp] at hle
    simp only at hle
    simp only [h2, if_false, bind, Except.bind, pure, Except.pure, hp] at h
    by_cases hf : size = 0 ∧ b1 ≠ 0
    · simp only [hf, and_self, ne_eq, not_false_eq_true, if_true, Except.ok.injEq,
        Prod.mk.injEq] at h
      omega
    · simp only [hf, if_false, Except.ok.injEq, Prod.mk.injEq] at h
      omega

theorem push_code_spec (d : Data) (size pw bits : Nat) (out : List Nat) (pw1 : Nat)
    (bits1 : Int) (out1 : List Nat)
    (h : push_code d size pw (bits : Int) out = .ok (pw1, bits1, out1))
    (h0 : 0 ≤ d.code_bits) (h63 : d.code_bits ≤ 63) (hc : d.code < 2 ^ d.code_bits.toNat) :
    ∃ b1 : Nat, bits1 = (b1 : Int) ∧
      (0 < size → bits_of_bytes out1 ++ code_string pw1 b1 =
        bits_of_bytes out ++ code_string pw bits ++ d.code_word) ∧
      (size = 0 → b1 = 0 ∧ ∃ pad, pad < 8 ∧ bits_of_bytes out1 =
        bits_of_bytes out ++ code_string pw bits ++ d.code_word ++
          List.replicate pad false) := by
  obtain ⟨cb, hcb⟩ : ∃ cb : Nat, d.code_bits = (cb : Int) := ⟨d.code_bits.toNat, by omega⟩
  have hcb63 : cb ≤ 63 := by omega
  have hcbt : d.code_bits.toNat = cb := by omega
  rw [hcbt] at hc
  unfold push_code at h
  rw [hcb, shift_left_eq pw cb hcb63] at h
  by_cases h2 : (bits : Int) + (cb : Int) > 64
  · simp [h2, bind, Except.bind, throw, throwThe, MonadExceptOf.throw, pure,
      Except.pure] at h
  have hsum : (bits : Int) + (cb : Int) = ((bits + cb : Nat) : Int) := by push_cast; rfl
  have hsumt : ((bits : Int) + (cb : Int)).toNat = bits + cb := by omega
  have h64 : bits + cb ≤ 64 := by omega
  obtain ⟨s1, s2⟩ := put_bytes_spec (((pw <<< cb) % 2 ^ 64) ||| d.code)
    (bits + cb) (bits + cb) out (Nat.le_refl _)
  have hlt : (bits + cb) % 8 < 8 := Nat.mod_lt _ (by norm_num)
  simp only [h2, if_false, bind, Except.bind, pure, Except.pure, hsumt] at h
  rw [hsum] at h
  cases hp : put_bytes (((pw <<< cb) % 2 ^ 64) ||| d.code) (bits + cb)
    ((bits + cb : Nat) : Int) out with
  | mk b1 o1 =>
    rw [hp] at s1 s2
    simp only at s1 s2
    simp only [hp] at h
    have hword : d.code_word = code_string d.code cb := by
      simp [Data.code_word, hcbt]
    by_cases hf : size = 0 ∧ b1 ≠ 0
    · simp only [hf, and_self, ne_eq, not_false_eq_true, if_true, Except.ok.injEq,
        Prod.mk.injEq] at h
      obtain ⟨_, hb, ho⟩ := h
      refine ⟨0, by omega, fun hs => by omega, fun _ => ⟨rfl, 8 - (bits + cb) % 8, by
        have := hf.2; omega, ?_⟩⟩
      have hsh : shift_left (((pw <<< cb) % 2 ^ 64) ||| d.code) (8 - b1) =
          (((((pw <<< cb) % 2 ^ 64) ||| d.code) <<< (8 - (bits + cb) % 8)) % 2 ^ 64) := by
        rw [s1]
        have : (8 : Int) - (((bits + cb) % 8 : Nat) : Int) = ((8 - (bits + cb) % 8 : Nat) : Int) := by
          omega
        rw [this, shift_left_eq _ _ (by omega)]
      rw [← ho, hsh, bits_of_bytes_append, bits_of_bytes_singleton,
        code_string_flush _ ((bits + cb) % 8) (by omega), ← List.append_assoc, s2,
        code_string_push pw d.code bits _ h64 hc, hword]
      simp [List.append_assoc]
    · simp only [hf, if_false, Except.ok.injEq, Prod.mk.injEq] at h
      obtain ⟨hw, hb, ho⟩ := h
      subst hw ho
      refine ⟨(bits + cb) % 8, by rw [← hb, s1], fun _ => ?_, fun hs => ?_⟩
      · rw [s2, code_string_push pw d.code bits _ h64 hc, hword]
        simp [List.append_assoc]
      · have hb0 : (bits + cb) % 8 = 0 := by
          by_contra hne
          apply hf
          refine ⟨hs, ?_⟩
          rw [s1]
          omega
        refine ⟨hb0, 0, by norm_num, ?_⟩
        have := s2
        rw [hb0] at this
        simp only [code_string, List.range_zero, List.map_nil, List.append_nil] at this
        rw [this]
        have hcs := code_string_push pw d.code bits _ h64 hc
        simp only [code_string] at hcs
        rw [hcs, hword]
        simp [code_string, List.append_assoc]

theorem found_data_frame (symbol : Nat → Nat) (symbol_size : Nat) (g : Globals) (a : Nat)
    (b : Int) :
    found_data symbol symbol_size { g with partial_word := a, partial_word_bits := b } =
      found_data symbol symbol_size g := by
  unfold found_data find_hash_table_node
  simp only
  cases hash_function g.hash_table_size symbol symbol_size with
  | error e => rfl
  | ok idx =>
    simp only [bind, Except.bind]
    cases chain_find symbol (g.hash_table idx) with
    | error e => rfl
    | ok found => cases found <;> rfl

/-- On an array of 16 bytes none of which is zero, `hash_function` and
`strcmp` read the bytes that follow the array: with 62 00 after sixteen 61
the hash is that of the 17 bytes, not that of the 16, and `strcmp` tells the
array from one followed by 10 00. -/
theorem hash_function_reads_past_array :
    hash_function 100000 (array_of (List.replicate 16 97 ++ [98])) 16 = .ok 78240 ∧
    hash_function 100000 (array_of (List.replicate 16 97)) 16 = .ok 37909 ∧
    strcmp_zero (array_of (List.replicate 16 97 ++ [98]))
      (array_of (List.replicate 16 97 ++ [16])) = .ok false ∧
    strcmp_zero (array_of (List.replicate 16 97 ++ [16]))
      (array_of (List.replicate 16 97 ++ [16])) = .ok true :=
  ⟨rfl, rfl, rfl, rfl⟩

theorem write_code_word_ok (symbol : Nat → Nat) (symbol_size : Nat) (g g1 : Globals)
    (fp_out out1 : List Nat) (h : write_code_word symbol symbol_size g fp_out = .ok (g1, out1)) :
    ∃ d pw1 bits1, found_data symbol symbol_size g = .ok d ∧
      push_code d symbol_size g.partial_word g.partial_word_bits fp_out = .ok (pw1, bits1, out1) ∧
      g1 = { g with partial_word := pw1, partial_word_bits := bits1 } := by
  rw [write_code_word_eq] at h
  cases hf : found_data symbol symbol_size g with
  | error e => simp [hf, bind, Except.bind] at h
  | ok d =>
    cases hp : push_code d symbol_size g.partial_word g.partial_word_bits fp_out with
    | error e => simp [hf, hp, bind, Except.bind] at h
    | ok r =>
      obtain ⟨pw1, bits1, o1⟩ := r
      simp only [hf, hp, bind, Except.bind, pure, Except.pure, Except.ok.injEq,
        Prod.mk.injEq] at h
      exact ⟨d, pw1, bits1, rfl, h.2 ▸ hp, h.1.symm⟩

theorem write_calls_cons (e : Emitted) (es : List Emitted) (g : Globals) (fp_out : List Nat) :
    write_calls (e :: es) g fp_out =
      (write_code_word e.symbol e.symbol_size g fp_out >>= fun s => write_calls es s.1 s.2) := by
  simp [write_calls, List.foldlM_cons]

theorem write_calls_bits (calls : List Emitted) : ∀ (g g1 : Globals) (fp_out out1 : List Nat),
    g.partial_word_bits ≤ 7 → write_calls calls g fp_out = .ok (g1, out1) →
    g1.partial_word_bits ≤ 7 ∧ g1.hash_table = g.hash_table := by
  induction calls with
  | nil =>
    intro g g1 fp_out out1 hb h
    simp only [write_calls, List.foldlM_nil, pure, Except.pure, Except.ok.injEq,
      Prod.mk.injEq] at h
    rw [← h.1]; exact ⟨hb, rfl⟩
  | cons e es ih =>
    intro g g1 fp_out out1 _ h
    rw [write_calls_cons] at h
    cases hw : write_code_word e.symbol e.symbol_size g fp_out with
    | error f => simp [hw, bind, Except.bind] at h
    | ok r =>
      obtain ⟨g2, out2⟩ := r
      simp only [hw, bind, Except.bind] at h
      obtain ⟨d, pw1, bits1, _, hp, hg⟩ := write_code_word_ok _ _ _ _ _ _ hw
      have hb2 : g2.partial_word_bits ≤ 7 := by
        rw [hg]; exact (push_code_bits _ _ _ _ _ _ _ _ hp).1
      have ht2 : g2.hash_table = g.hash_table := by rw [hg]
      obtain ⟨h1, h2⟩ := ih g2 g1 out2 out1 hb2 h
      exact ⟨h1, h2.trans ht2⟩

theorem write_calls_pack (calls : List Emitted) : ∀ (g g1 : Globals) (fp_out out1 : List Nat),
    0 ≤ g.partial_word_bits →
    (∀ e ∈ calls, 0 < e.symbol_size) →
    (∀ e ∈ calls, ∀ d, found_data e.symbol e.symbol_size g = .ok d →
      0 ≤ d.code_bits ∧ d.code_bits ≤ 63 ∧ d.code < 2 ^ d.code_bits.toNat) →
    write_calls calls g fp_out = .ok (g1, out1) →
    ∃ ds, List.Forall₂ (fun e d => found_data e.symbol e.symbol_size g = .ok d) calls ds ∧
      0 ≤ g1.partial_word_bits ∧
      bits_of_bytes out1 ++ code_string g1.partial_word g1.partial_word_bits.toNat =
        bits_of_bytes fp_out ++ code_string g.partial_word g.partial_word_bits.toNat ++
          ds.flatMap Data.code_word ∧
      ∀ symbol symbol_size,
        found_data symbol symbol_size g1 = found_data symbol symbol_size g := by
  induction calls with
  | nil =>
    intro g g1 fp_out out1 h0 _ _ h
    simp only [write_calls, List.foldlM_nil, pure, Except.pure, Except.ok.injEq,
      Prod.mk.injEq] at h
    obtain ⟨hg, ho⟩ := h
    subst hg ho
    exact ⟨[], List.Forall₂.nil, h0, by simp, fun _ _ => rfl⟩
  | cons e es ih =>
    intro g g1 fp_out out1 h0 hsize hcodes h
    rw [write_calls_cons] at h
    cases hw : write_code_word e.symbol e.symbol_size g fp_out with
    | error f => simp [hw, bind, Except.bind] at h
    | ok r =>
      obtain ⟨g2, out2⟩ := r
      simp only [hw, bind, Except.bind] at h
      obtain ⟨d, pw1, bits1, hf, hp, hg⟩ := write_code_word_ok _ _ _ _ _ _ hw
      have hfr : ∀ symbol symbol_size,
          found_data symbol symbol_size g2 = found_data symbol symbol_size g := by
        intro symbol symbol_size
        rw [hg]; exact found_data_frame _ _ _ _ _
      obtain ⟨c0, c63, hc⟩ := hcodes e (List.mem_cons_self _ _) d hf
      obtain ⟨b, hb⟩ : ∃ b : Nat, g.partial_word_bits = (b : Int) :=
        ⟨g.partial_word_bits.toNat, by omega⟩
      rw [hb] at hp
      obtain ⟨b1, hb1, hstep, _⟩ := push_code_spec _ _ _ _ _ _ _ _ hp c0 c63 hc
      have hstep := hstep (hsize e (List.mem_cons_self _ _))
      have hg2b : g2.partial_word_bits = (b1 : Int) := by rw [hg]; exact hb1
      obtain ⟨ds, hall, h01, hbits, hfr1⟩ := ih g2 g1 out2 out1 (by omega)
        (fun e1 he1 => hsize e1 (List.mem_cons_of_mem _ he1))
        (fun e1 he1 d1 hd1 => hcodes e1 (List.mem_cons_of_mem _ he1) d1 (by rw [← hfr]; exact hd1))
        h
      refine ⟨d :: ds, List.Forall₂.cons hf ?_, h01, ?_, fun s n => (hfr1 s n).trans (hfr s n)⟩
      · exact List.Forall₂.imp (fun e1 d1 h0 => by rw [← hfr]; exact h0) hall
      · have hg2 : code_string g2.partial_word g2.partial_word_bits.toNat =
            code_string pw1 b1 := by
          rw [hg2b, hg]; rfl
        rw [hbits, hg2, hstep, hb]
        simp [List.append_assoc]

/-- Bit packing for codes of up to 63 bits.  From `partial_word_bits` = 0,
after calls of `write_code_word` with `symbol_size` > 0 that all return and
one last call with `symbol_size` = 0 that returns, each for a node with
0 <= code_bits <= 63 whose code is below 2^code_bits, the bytes written, read
as bits most significant bit first, are the code words of the nodes found, in
the order of the calls, followed by fewer than 8 zero bits;
`partial_word_bits` is 0 at the end and at most 7 after every call. -/
theorem write_code_word_packs (g g1 g2 : Globals) (calls : List Emitted) (last : Nat → Nat)
    (out1 out2 : List Nat) (hb : g.partial_word_bits = 0)
    (hsize : ∀ e ∈ calls, 0 < e.symbol_size)
    (hcodes : ∀ e ∈ calls ++ [⟨last, 0⟩], ∀ d,
      found_data e.symbol e.symbol_size g = .ok d →
        0 ≤ d.code_bits ∧ d.code_bits ≤ 63 ∧ d.code < 2 ^ d.code_bits.toNat)
    (h1 : write_calls calls g [] = .ok (g1, out1))
    (h2 : write_code_word last 0 g1 out1 = .ok (g2, out2)) :
    ∃ ds dz pad,
      List.Forall₂ (fun e d => found_data e.symbol e.symbol_size g = .ok d) calls ds ∧
      found_data last 0 g = .ok dz ∧ pad < 8 ∧
      bits_of_bytes out2 = (ds ++ [dz]).flatMap Data.code_word ++ List.replicate pad false ∧
      g2.partial_word_bits = 0 ∧
      ∀ pre post s out, calls = pre ++ post → write_calls pre g [] = .ok (s, out) →
        s.partial_word_bits ≤ 7 := by
  obtain ⟨ds, hall, h01, hbits, hfr⟩ := write_calls_pack calls g g1 [] out1 (by omega) hsize
    (fun e he => hcodes e (List.mem_append_left _ he)) h1
  obtain ⟨dz, pw1, bits1, hf, hp, hg⟩ := write_code_word_ok _ _ _ _ _ _ h2
  rw [hfr] at hf
  obtain ⟨c0, c63, hc⟩ := hcodes ⟨last, 0⟩ (by simp) dz hf
  obtain ⟨b, hbb⟩ : ∃ b : Nat, g1.partial_word_bits = (b : Int) :=
    ⟨g1.partial_word_bits.toNat, by omega⟩
  rw [hbb] at hp
  obtain ⟨b1, hb1, _, hz⟩ := push_code_spec _ _ _ _ _ _ _ _ hp c0 c63 hc
  obtain ⟨hz, pad, hpad, hout⟩ := hz rfl
  refine ⟨ds, dz, pad, hall, hf, hpad, ?_, by rw [hg]; simp [hb1, hz], ?_⟩
  · have hbt : g1.partial_word_bits.toNat = b := by omega
    rw [hbt] at hbits
    rw [hout, hbits, hb]
    simp [bits_of_bytes, code_string, List.append_assoc]
  · intro pre post s out _ hs
    exact (write_calls_bits pre g s [] out (by omega) hs).1

theorem count_at_of_get (a : List node) (i : Nat) (d : Data) (l r : node)
    (h : a[i]? = some (.mk d l r)) : count_at a i = d.count := by
  simp [count_at, h]

theorem count_at_set_ne (a : List node) (i j : Nat) (p : node) (h : j ≠ i) :
    count_at (a.set i p) j = count_at a j := by
  simp [count_at, List.getElem?_set_ne (Ne.symm h)]

theorem count_at_set_self (a : List node) (i : Nat) (d : Data) (l r : node)
    (h : i < a.length) : count_at (a.set i (.mk d l r)) i = d.count := by
  simp [count_at, List.getElem?_set_self h]

theorem count_at_append_left (a b : List node) (i : Nat) (h : i < a.length) :
    count_at (a ++ b) i = count_at a i := by
  simp [count_at, List.getElem?_append_left h]

theorem set_set_perm (a : List node) (i k : Nat) (n p : node) (hi : i < a.length)
    (hk : k < a.length) (hne : k ≠ i) (hp : a[k]? = some p) :
    ((a.set i p).set k n).Perm (a.set i n) := by
  classical
  rw [List.perm_iff_count]
  intro x
  have hk1 : k < (a.set i p).length := by rw [List.length_set]; exact hk
  have hget : (a.set i p)[k] = p := by
    have := List.getElem?_set_ne (l := a) (a := p) (Ne.symm hne)
    rw [hp] at this
    exact (List.getElem?_eq_some.mp this).2
  rw [List.count_set _ _ _ _ hk1, List.count_set _ _ _ _ hi, List.count_set _ _ _ _ hi, hget]
  omega

theorem heap_hole_step (a : List node) (i c : Nat) (pd : Data) (pl pr : node)
    (hi : i < a.length) (h0 : i ≠ 0) (hp : a[i / 2]? = some (.mk pd pl pr))
    (hc : c < pd.count) (hole : heap_hole a i c) :
    heap_hole (a.set i (.mk pd pl pr)) (i / 2) c := by
  obtain ⟨H1, H2⟩ := hole
  have hlt : i / 2 < i := Nat.div_lt_self (Nat.pos_of_ne_zero h0) (by norm_num)
  have cp : count_at a (i / 2) = pd.count := count_at_of_get a _ pd pl pr hp
  have cself : count_at (a.set i (.mk pd pl pr)) i = pd.count :=
    count_at_set_self a i pd pl pr hi
  have cne : ∀ j, j ≠ i → count_at (a.set i (.mk pd pl pr)) j = count_at a j :=
    fun j hj => count_at_set_ne a i j _ hj
  constructor
  · intro j hj1 hjl hji hjp
    rw [List.length_set] at hjl
    have hjne : j ≠ i := by
      intro h; apply hjp; rw [h]
    rw [cne j hjne]
    by_cases hpar : j / 2 = i
    · rw [hpar, cself, ← cp]
      exact (H2 j hj1 hjl hjne hpar).2 (by omega)
    · rw [cne _ hpar]
      exact H1 j hj1 hjl hjne hpar
  · intro j hj1 hjl hji hjp
    rw [List.length_set] at hjl
    have hgp : count_at (a.set i (.mk pd pl pr)) (i / 2 / 2) = count_at a (i / 2 / 2) :=
      cne _ (by omega)
    have hpp : 1 ≤ i / 2 → count_at a (i / 2 / 2) ≤ count_at a (i / 2) := by
      intro h1
      exact H1 (i / 2) h1 (by omega) (by omega) (by omega)
    by_cases hjne : j = i
    · rw [hjne, cself, hgp]
      refine ⟨by omega, fun h1 => ?_⟩
      rw [← cp]
      exact hpp h1
    · rw [cne j hjne, hgp]
      have hpj : count_at a (i / 2) ≤ count_at a j := by
        have := H1 j hj1 hjl hjne (by omega)
        rw [hjp] at this
        exact this
      refine ⟨by omega, fun h1 => ?_⟩
      exact Nat.le_trans (hpp h1) hpj

theorem sift_up_order (d : Data) (l r : node) : ∀ (k i : Nat) (a : List node),
    i ≤ k → i < a.length →
    (∀ j m, j ≠ i → a[j]? = some m → m ≠ node.NULL) →
    heap_hole a i d.count →
    ∃ i1 a1, sift_up (.mk d l r) k i a = .ok (i1, a1) ∧ a1.length = a.length ∧
      i1 < a1.length ∧ (∀ j m, j ≠ i1 → a1[j]? = some m → m ≠ node.NULL) ∧
      heap_hole a1 i1 d.count ∧ (i1 = 0 ∨ count_at a1 (i1 / 2) ≤ d.count) ∧
      (a1.set i1 (.mk d l r)).Perm (a.set i (.mk d l r)) := by
  intro k
  induction k with
  | zero =>
    intro i a hik hi hinv hole
    exact ⟨i, a, rfl, rfl, hi, hinv, hole, Or.inl (by omega), List.Perm.refl _⟩
  | succ k ih =>
    intro i a hik hi hinv hole
    by_cases h0 : i = 0
    · exact ⟨i, a, by simp [sift_up, h0], rfl, hi, hinv, hole, Or.inl h0, List.Perm.refl _⟩
    · have hlt : i / 2 < i := Nat.div_lt_self (Nat.pos_of_ne_zero h0) (by norm_num)
      have hp : a[i / 2]? = some a[i / 2] := List.getElem?_eq_getElem (by omega)
      have hpn := hinv (i / 2) _ (Nat.ne_of_lt hlt) hp
      cases hpc : a[i / 2] with
      | NULL => exact absurd hpc hpn
      | mk pd pl pr =>
        rw [hpc] at hp
        by_cases hc : d.count < pd.count
        · obtain ⟨i1, a1, h1, h2, h3, h4, h5, h6, h7⟩ := ih (i / 2) (a.set i (.mk pd pl pr))
            (by omega) (by rw [List.length_set]; omega)
            (by
              intro j m hj hm
              by_cases hji : j = i
              · subst hji
                rw [List.getElem?_set_self hi] at hm
                cases hm
                simp
              · rw [List.getElem?_set_ne (Ne.symm hji)] at hm
                exact hinv j m hji hm)
            (heap_hole_step a i d.count pd pl pr hi h0 hp hc hole)
          refine ⟨i1, a1, ?_, by rw [h2, List.length_set], h3, h4, h5, h6, ?_⟩
          · simp [sift_up, h0, node.data, slot, hp, hc, h1, bind, Except.bind]
          · exact h7.trans (set_set_perm a i (i / 2) _ _ hi (by omega) (by omega) hp)
        · refine ⟨i, a, ?_, rfl, hi, hinv, hole, Or.inr ?_, List.Perm.refl _⟩
          · simp [sift_up, h0, node.data, slot, hp, hc, bind, Except.bind, pure, Except.pure]
          · rw [count_at_of_get a _ pd pl pr hp]
            omega

theorem heap_order_of_hole (a : List node) (i : Nat) (d : Data) (l r : node)
    (hi : i < a.length) (hole : heap_hole a i d.count)
    (hstop : i = 0 ∨ count_at a (i / 2) ≤ d.count) :
    heap_order (a.set i (.mk d l r)) a.length := by
  obtain ⟨H1, H2⟩ := hole
  intro j hj1 hjl
  by_cases hji : j = i
  · subst hji
    have hlt : j / 2 < j := Nat.div_lt_self (by omega) (by norm_num)
    rw [count_at_set_self a j d l r hi, count_at_set_ne a j _ _ (by omega)]
    rcases hstop with h | h
    · omega
    · exact h
  · rw [count_at_set_ne a i j _ hji]
    by_cases hpar : j / 2 = i
    · rw [hpar, count_at_set_self a i d l r hi]
      exact (H2 j hj1 hjl hji hpar).1
    · rw [count_at_set_ne a i _ _ hpar]
      exact H1 j hj1 hjl hji hpar

theorem min_heap_put_room (g : Globals) (hlen : g.min_heap_array.length = g.min_heap_size) :
    (if g.min_heap_size ≠ 0 then realloc_slots g.min_heap_array (g.min_heap_size + 1)
      else realloc_slots [] 1) = g.min_heap_array ++ [node.NULL] := by
  by_cases hs : g.min_heap_size = 0
  · have : g.min_heap_array = [] := List.length_eq_zero.mp (hlen.trans hs)
    simp [hs, this, realloc_slots]
  · simp only [ne_eq, hs, not_false_eq_true, if_true, realloc_slots, ← hlen]
    rw [List.take_of_length_le (Nat.le_succ _)]
    simp

theorem min_heap_put_holds (d : Data) (l r : node) (g : Globals) (ns : List node)
    (h : heap_holds g ns) :
    ∃ g1, min_heap_put (.mk d l r) g = .ok g1 ∧ heap_holds g1 (ns ++ [.mk d l r]) := by
  obtain ⟨hlen, hall, hperm, hord⟩ := h
  have ha := min_heap_put_room g hlen
  have hlen0 : (g.min_heap_array ++ [node.NULL]).length = g.min_heap_size + 1 := by
    simp [hlen]
  obtain ⟨i1, a1, h1, h2, h3, h4, h5, h6, h7⟩ := sift_up_order d l r g.min_heap_size
    g.min_heap_size (g.min_heap_array ++ [node.NULL]) (Nat.le_refl _) (by omega)
    (by
      intro j m hj hm
      have hjl : j < g.min_heap_array.length := by
        have := (List.getElem?_eq_some.mp hm).1
        omega
      rw [List.getElem?_append_left hjl] at hm
      exact hall m (List.mem_iff_getElem?.mpr ⟨j, hm⟩))
    (by
      constructor
      · intro j hj1 hjl hji _
        have hj : j < g.min_heap_array.length := by omega
        rw [count_at_append_left _ _ _ hj, count_at_append_left _ _ _ (by omega)]
        exact hord j hj1 (by omega)
      · intro j hj1 hjl hji hjp
        omega)
  have hset : (g.min_heap_array ++ [node.NULL]).set g.min_heap_size (.mk d l r) =
      g.min_heap_array ++ [.mk d l r] := by
    rw [← hlen, List.set_append_right _ _ (Nat.le_refl _)]
    simp
  refine ⟨{ g with min_heap_array := a1.set i1 (.mk d l r),
                   min_heap_size := g.min_heap_size + 1 }, ?_, ?_, ?_, ?_, ?_⟩
  · simp only [min_heap_put, ha, h1, bind, Except.bind, pure, Except.pure]
  · simp [h2, hlen]
  · intro m hm
    obtain ⟨j, hj⟩ := List.mem_iff_getElem?.mp hm
    by_cases hji : j = i1
    · subst hji
      rw [List.getElem?_set_self h3] at hj
      cases hj
      simp
    · rw [List.getElem?_set_ne (Ne.symm hji)] at hj
      exact h4 j m hji hj
  · show (a1.set i1 (.mk d l r)).Perm (ns ++ [.mk d l r])
    rw [hset] at h7
    exact h7.trans (List.Perm.append_right _ hperm)
  · have := heap_order_of_hole a1 i1 d l r h3 h5 h6
    rw [h2, hlen0] at this
    exact this

theorem fill_heap_holds (ns : List node) : ∀ (g : Globals) (acc : List node),
    heap_holds g acc → (∀ n ∈ ns, n ≠ node.NULL) →
    ∃ g1, ns.foldlM (fun g n => min_heap_put n g) g = .ok g1 ∧ heap_holds g1 (acc ++ ns) := by
  induction ns with
  | nil => intro g acc h _; exact ⟨g, rfl, by simpa using h⟩
  | cons n ns ih =>
    intro g acc h hn
    cases n with
    | NULL => exact absurd rfl (hn _ (List.mem_cons_self _ _))
    | mk d l r =>
      obtain ⟨g1, e1, f1⟩ := min_heap_put_holds d l r g acc h
      obtain ⟨g2, e2, f2⟩ := ih g1 _ f1 (fun m hm => hn m (List.mem_cons_of_mem _ hm))
      refine ⟨g2, ?_, by simpa using f2⟩
      simp only [List.foldlM_cons, e1, bind, Except.bind]
      exact e2

theorem min_heap_put_empty (n : node) (g : Globals) (h0 : g.min_heap_size = 0) :
    min_heap_put n g = min_heap_put n { g with min_heap_array := [] } := by
  simp [min_heap_put, h0]

theorem heap_order_root (a : List node) (bound : Nat) (h : heap_order a bound) :
    ∀ j, j < bound → count_at a 0 ≤ count_at a j := by
  intro j
  induction j using Nat.strong_induction_on with
  | _ j ih =>
    intro hj
    by_cases h0 : j = 0
    · subst h0; exact Nat.le_refl _
    · have hlt : j / 2 < j := Nat.div_lt_self (Nat.pos_of_ne_zero h0) (by norm_num)
      exact Nat.le_trans (ih (j / 2) hlt (by omega)) (h j (by omega) hj)

/-- C20: starting from an empty heap, any sequence of `min_heap_put` calls for
nodes returns; afterwards `min_heap_size` is the number of calls, the slots
below `min_heap_size` hold exactly the inserted nodes, the count in slot
`i / 2` is at most the count in slot `i` for every `i` from 1 up to
`min_heap_size` - 1, and so slot 0 holds a node of minimum count. -/
theorem min_heap_put_keeps_order (g0 : Globals) (ns : List node)
    (h0 : g0.min_heap_size = 0) (hn : ∀ n ∈ ns, n ≠ node.NULL) :
    ∃ g, ns.foldlM (fun g n => min_heap_put n g) g0 = .ok g ∧
      g.min_heap_size = ns.length ∧
      (g.min_heap_array.take g.min_heap_size).Perm ns ∧
      (∀ i, 1 ≤ i → i < g.min_heap_size →
        count_at g.min_heap_array (i / 2) ≤ count_at g.min_heap_array i) ∧
      (∀ i, i < g.min_heap_size →
        count_at g.min_heap_array 0 ≤ count_at g.min_heap_array i) := by
  cases ns with
  | nil =>
    refine ⟨g0, rfl, h0, by simp [h0], ?_, ?_⟩
    · intro i _ hi; omega
    · intro i hi; omega
  | cons n ns =>
    obtain ⟨g, e, hlen, _, hperm, hord⟩ := fill_heap_holds (n :: ns)
      { g0 with min_heap_array := [] } [] ⟨by simp [h0], by simp, List.Perm.refl _,
        by intro j _ hj; simp only [h0] at hj; omega⟩ hn
    refine ⟨g, ?_, ?_, ?_, hord, heap_order_root _ _ hord⟩
    · simp only [List.foldlM_cons] at e ⊢
      rw [min_heap_put_empty n g0 h0]
      exact e
    · rw [← hlen, hperm.length_eq]
      simp
    · rw [← hlen, List.take_length]
      simpa using hperm

/-- Nodes with the counts 3, 1, 2 put in the heap the program starts with. -/
theorem min_heap_put_keeps_order_witness :
    ∃ g, [counted 3, counted 1, counted 2].foldlM (fun g n => min_heap_put n g) Globals.start
        = .ok g ∧
      g.min_heap_size = [counted 3, counted 1, counted 2].length ∧
      (g.min_heap_array.take g.min_heap_size).Perm [counted 3, counted 1, counted 2] ∧
      (∀ i, 1 ≤ i → i < g.min_heap_size →
        count_at g.min_heap_array (i / 2) ≤ count_at g.min_heap_array i) ∧
      (∀ i, i < g.min_heap_size →
        count_at g.min_heap_array 0 ≤ count_at g.min_heap_array i) :=
  min_heap_put_keeps_order Globals.start [counted 3, counted 1, counted 2] rfl (by
    intro n hn h
    subst h
    simp [counted] at hn)

end Huffman
